import Mathlib

/-!
PlayClips catalog core (`src/js/models.js`).

A shallow embedding of the two classes of `models.js`, `PlayClips` and
`Influencer`, followed by the properties established about them.

Modelling conventions.

* A JavaScript string is its sequence of UTF-16 code units (`JsString`).
  `===`, `indexOf`, `charAt`, `length` and the default comparison of
  `Array.prototype.sort` all act on code units.
* A JavaScript number is an IEEE 754 binary64 value (`Double`): a finite value
  is the rational it denotes, and every sum and product is rounded to the
  nearest value of the format, ties to even, overflowing to an infinity. The
  sign of zero is not tracked: no operation of the code distinguishes it.
* A plain object obtained from `JSON.parse` is the list of its own
  properties, in the order `Object.keys` enumerates them (`JsObject`).
* An exception is a value of `JsError` carried by `Except`.
* `Math.random()` is an explicit argument `u`, a binary64 value with
  `0 ≤ u < 1`.
-/

namespace PlayClipsModel

/-! ## Strings -/

/-- A JavaScript string: a finite sequence of UTF-16 code units. -/
abbrev JsString := List Nat

/-- UTF-16 code units of one Unicode scalar value. -/
def utf16 (c : Char) : List Nat :=
  if c.toNat < 65536 then [c.toNat]
  else [55296 + (c.toNat - 65536) / 1024, 56320 + (c.toNat - 65536) % 1024]

/-- The JavaScript string written by a literal. -/
def js (s : String) : JsString := s.toList.flatMap utf16

/-- Method `String.prototype.charAt`: the one-unit string at index `pos`, or the
empty string when `pos` is out of range. -/
def charAt (s : JsString) (pos : Int) : JsString :=
  if pos < 0 then []
  else
    match s.get? pos.toNat with
    | some c => [c]
    | none => []

/-- Relation `x < y` on strings (abstract relational comparison): the first
differing code unit decides, and a proper prefix is smaller. -/
def strLt : JsString → JsString → Bool
  | [], [] => false
  | [], _ :: _ => true
  | _ :: _, [] => false
  | a :: as, b :: bs => if a < b then true else if b < a then false else strLt as bs

/-! ## Numbers -/

/-- Rounding of a rational to the nearest integer, ties to even. -/
def rne (x : ℚ) : Int :=
  if x - ⌊x⌋ < 1 / 2 then ⌊x⌋
  else if 1 / 2 < x - ⌊x⌋ then ⌊x⌋ + 1
  else if ⌊x⌋ % 2 = 0 then ⌊x⌋ else ⌊x⌋ + 1

/-- Exponent of the unit in the last place of the binary64 format around `q`:
53 significant bits, least exponent `-1074`. -/
def quantum (q : ℚ) : Int := max (Int.log 2 |q| - 52) (-1074)

/-- Rounding to 53 significant bits, ties to even, before the overflow test. -/
def roundQ (q : ℚ) : ℚ := (rne (q / (2 : ℚ) ^ quantum q) : ℚ) * (2 : ℚ) ^ quantum q

/-- A binary64 value: `NaN`, the two infinities, or a finite value given by the
rational it denotes. -/
inductive Double where
  | nan
  | negInf
  | fin (q : ℚ)
  | posInf
  deriving DecidableEq

/-- Rounding of an exact result to binary64: a result that rounds to magnitude
`2 ^ 1024` or more overflows to an infinity. -/
def round (q : ℚ) : Double :=
  if (2 : ℚ) ^ (1024 : Nat) ≤ roundQ q then Double.posInf
  else if roundQ q ≤ -(2 : ℚ) ^ (1024 : Nat) then Double.negInf
  else Double.fin (roundQ q)

/-- Operator `+` on numbers. -/
def Double.add (x y : Double) : Double :=
  match x with
  | Double.nan => Double.nan
  | Double.posInf =>
    match y with
    | Double.nan => Double.nan
    | Double.negInf => Double.nan
    | _ => Double.posInf
  | Double.negInf =>
    match y with
    | Double.nan => Double.nan
    | Double.posInf => Double.nan
    | _ => Double.negInf
  | Double.fin a =>
    match y with
    | Double.fin b => round (a + b)
    | other => other

/-- Product of an infinity, positive when `pos`, with the finite value `a`. -/
def Double.mulInf (pos : Bool) (a : ℚ) : Double :=
  if a = 0 then Double.nan
  else if (0 < a) = pos then Double.posInf else Double.negInf

/-- Operator `*` on numbers. -/
def Double.mul (x y : Double) : Double :=
  match x with
  | Double.nan => Double.nan
  | Double.posInf =>
    match y with
    | Double.nan => Double.nan
    | Double.posInf => Double.posInf
    | Double.negInf => Double.negInf
    | Double.fin b => Double.mulInf true b
  | Double.negInf =>
    match y with
    | Double.nan => Double.nan
    | Double.posInf => Double.negInf
    | Double.negInf => Double.posInf
    | Double.fin b => Double.mulInf false b
  | Double.fin a =>
    match y with
    | Double.nan => Double.nan
    | Double.posInf => Double.mulInf true a
    | Double.negInf => Double.mulInf false a
    | Double.fin b => round (a * b)

/-- Function `Math.floor`. -/
def Double.floor (x : Double) : Double :=
  match x with
  | Double.fin a => Double.fin (⌊a⌋ : Int)
  | other => other

/-- Operator `>` on numbers; every comparison with `NaN` is false. -/
def Double.gt (x y : Double) : Bool :=
  match x, y with
  | Double.fin a, Double.fin b => decide (b < a)
  | Double.posInf, Double.fin _ => true
  | Double.posInf, Double.negInf => true
  | Double.fin _, Double.negInf => true
  | _, _ => false

/-- Operator `>=` on numbers; every comparison with `NaN` is false. -/
def Double.ge (x y : Double) : Bool :=
  match x, y with
  | Double.fin a, Double.fin b => decide (b ≤ a)
  | Double.posInf, Double.nan => false
  | Double.posInf, _ => true
  | Double.fin _, Double.negInf => true
  | Double.negInf, Double.negInf => true
  | _, _ => false

/-- Rationals `m * 2 ^ e` with at most 53 significant bits and exponent at least
`-1074`: the grid on which the finite binary64 values lie. -/
def Representable (a : ℚ) : Prop :=
  ∃ m e : Int, |m| ≤ 2 ^ 53 ∧ -1074 ≤ e ∧ a = (m : ℚ) * (2 : ℚ) ^ e

/-- The binary64 values proper: a finite one lies on the grid and is below
`2 ^ 1024` in magnitude. -/
def Double.IsValue (d : Double) : Prop :=
  ∀ a, d = Double.fin a → Representable a ∧ |a| < (2 : ℚ) ^ (1024 : Nat)

/-! ## Objects -/

/-- Own enumerable properties of a plain object, in `Object.keys` order. -/
abbrev JsObject (β : Type) := List (JsString × β)

/-- Function `Object.keys`. -/
def Object.keys {β : Type} (o : JsObject β) : List JsString := o.map Prod.fst

/-- Own-property read `o[k]`; `none` when `o` has no own property `k`. -/
def Object.getOwn {β : Type} (o : JsObject β) (k : JsString) : Option β :=
  match o with
  | [] => none
  | (k', v) :: rest => if k' = k then some v else Object.getOwn rest k

/-- Names of the properties every plain object inherits from
`Object.prototype`. -/
def objectPrototypeNames : List JsString :=
  [js "constructor", js "__defineGetter__", js "__defineSetter__",
   js "hasOwnProperty", js "__lookupGetter__", js "__lookupSetter__",
   js "isPrototypeOf", js "propertyIsEnumerable", js "toString",
   js "valueOf", js "__proto__", js "toLocaleString"]

deriving instance DecidableEq for Except

/-- Exceptions. `TypeError` is what the runtime raises when a property of
`null` or `undefined` is read or when `Object.keys` is applied to them; the
other two kinds are those the specification names. -/
inductive JsError where
  | TypeError
  | NotLoadedError
  | UnknownInfluencerError
  deriving DecidableEq, Repr

/-! ## Data model -/

/-- A value of a property the data model does not type: a string, a number, a
boolean, `null`, or an array or object carried as its JSON text. -/
inductive JsValue where
  | string (s : JsString)
  | number (x : Double)
  | boolean (b : Bool)
  | null
  | composite (json : JsString)
  deriving DecidableEq

/-- A video record of the metadata document: the `location`, `weight` and `tags`
of the data model, and in `id` the record's own `id` property when the document
gives it one. -/
structure VideoRecord where
  id : Option JsValue
  location : JsString
  weight : Double
  tags : List JsString
  deriving DecidableEq

/-- The object built by `Object.assign({id: id}, record)`. -/
structure Video where
  id : JsValue
  location : JsString
  weight : Double
  tags : List JsString
  deriving DecidableEq

/-- An influencer record of the metadata document. -/
structure InfluencerRecord where
  name : JsString
  thumbnail : JsString
  videos : JsObject VideoRecord
  deriving DecidableEq

/-- The metadata document: influencer identifier to influencer record. -/
abbrev Metadata := JsObject InfluencerRecord

/-! ## class PlayClips -/

/-- Instance state of `PlayClips`; `metadata = none` is `null`. -/
structure PlayClips where
  url : JsString
  metadata : Option Metadata
  deriving DecidableEq

/-- Constructor `new PlayClips(baseUrl)`. -/
def PlayClips.constructor (baseUrl : JsString) : PlayClips :=
  let baseUrl := if charAt baseUrl ((baseUrl.length : Int) - 1) ≠ [47] then baseUrl ++ [47] else baseUrl
  { url := baseUrl, metadata := none }

/-- The address `initialize` fetches: `this.url + 'metadata.json'`. -/
def PlayClips.metadataUrl (pc : PlayClips) : JsString := pc.url ++ js "metadata.json"

/-- Method `initialize` once the fetch has resolved and the body has parsed to
`metadata`: the callback stores it. -/
def PlayClips.initialize (pc : PlayClips) (metadata : Metadata) : PlayClips :=
  { pc with metadata := some metadata }

/-! ## class Influencer -/

/-- The value of the property read `playclips.metadata[ident]`. -/
inductive Data where
  /-- The property exists neither on the object nor on `Object.prototype`. -/
  | undefined
  /-- An own property of the metadata object: an influencer record. -/
  | record (r : InfluencerRecord)
  /-- A member inherited from `Object.prototype`: a built-in function whose
  `name` is `fnName`, or (`none`) `Object.prototype` itself, which is what the
  `__proto__` getter returns and which has no `name`. -/
  | inherited (fnName : Option JsString)
  deriving DecidableEq

/-- Property read `metadata[ident]` on the parsed metadata object: own
properties first, then the prototype chain, which for an object built by
`JSON.parse` is `Object.prototype` alone. -/
def Object.get (metadata : Metadata) (ident : JsString) : Data :=
  match Object.getOwn metadata ident with
  | some r => Data.record r
  | none =>
    if ident = js "__proto__" then Data.inherited none
    else if ident = js "constructor" then Data.inherited (some (js "Object"))
    else if ident ∈ objectPrototypeNames then Data.inherited (some ident)
    else Data.undefined

/-- Instance state of `Influencer`. -/
structure Influencer where
  playclips : PlayClips
  ident : JsString
  data : Data
  deriving DecidableEq

/-- Constructor `new Influencer(playclips, ident)`. Reading a property of
`null` (metadata not loaded) raises a `TypeError`. -/
def Influencer.constructor (playclips : PlayClips) (ident : JsString) : Except JsError Influencer :=
  match playclips.metadata with
  | none => Except.error JsError.TypeError
  | some metadata =>
    Except.ok { playclips := playclips, ident := ident, data := Object.get metadata ident }

/-- Method `PlayClips.getInfluencer`. -/
def PlayClips.getInfluencer (pc : PlayClips) (ident : JsString) : Except JsError Influencer :=
  Influencer.constructor pc ident

/-- Method `PlayClips.getInfluencers`. `Object.keys(null)` raises a
`TypeError`. -/
def PlayClips.getInfluencers (pc : PlayClips) : Except JsError (List Influencer) :=
  match pc.metadata with
  | none => Except.error JsError.TypeError
  | some metadata => (Object.keys metadata).mapM (fun k => pc.getInfluencer k)

/-- Getter `name`: `this.data.name`; `none` is `undefined`. -/
def Influencer.name (inf : Influencer) : Except JsError (Option JsString) :=
  match inf.data with
  | Data.undefined => Except.error JsError.TypeError
  | Data.record r => Except.ok (some r.name)
  | Data.inherited fnName => Except.ok fnName

/-- Getter `thumbnail`: `this.data.thumbnail`; `none` is `undefined`. -/
def Influencer.thumbnail (inf : Influencer) : Except JsError (Option JsString) :=
  match inf.data with
  | Data.undefined => Except.error JsError.TypeError
  | Data.record r => Except.ok (some r.thumbnail)
  | Data.inherited _ => Except.ok none

/-- Call `Object.assign({id: id}, record)`: the own properties of the source
`record` are copied, in order, onto the target `{id: id}`, so an own `id` of the
record replaces the key. The result is the target after the call together with
the source, which the call only reads. -/
def Object.assign (id : JsString) (record : VideoRecord) : Video × VideoRecord :=
  ({ id := match record.id with
           | some own => own
           | none => JsValue.string id,
     location := record.location, weight := record.weight, tags := record.tags },
   record)

/-- The stored object after the record under its first key `k` has become
`value`. -/
def Object.putOwn {β : Type} (o : JsObject β) (k : JsString) (value : β) : JsObject β :=
  match o with
  | [] => []
  | (k0, v0) :: rest => if k0 = k then (k0, value) :: rest else (k0, v0) :: Object.putOwn rest k value

/-- The callback of the `videos` getter mapped over the identifiers `ids`, with
the stored video mapping passed through every call: the list built and the
mapping afterwards. Every `id` comes from `Object.keys`, so the read
`this.data.videos[id]` finds an own property. -/
def videosFrom (ids : List JsString) (stored : JsObject VideoRecord) :
    List Video × JsObject VideoRecord :=
  match ids with
  | [] => ([], stored)
  | id :: rest =>
    match Object.getOwn stored id with
    | some record =>
      let assigned := Object.assign id record
      let later := videosFrom rest (Object.putOwn stored id assigned.2)
      (assigned.1 :: later.1, later.2)
    | none => videosFrom rest stored

/-- Getter `videos` with the view passed through: the list returned and the
view afterwards. Reading `videos` of `undefined` raises a `TypeError`, and so
does `Object.keys(undefined)` when `this.data` is an inherited member. -/
def Influencer.videosRun (inf : Influencer) : Except JsError (List Video × Influencer) :=
  match inf.data with
  | Data.record r =>
    let result := videosFrom (Object.keys r.videos) r.videos
    Except.ok (result.1, { inf with data := Data.record { r with videos := result.2 } })
  | _ => Except.error JsError.TypeError

/-- Getter `videos`. -/
def Influencer.videos (inf : Influencer) : Except JsError (List Video) :=
  (Influencer.videosRun inf).map Prod.fst

/-- Whether `k` is an array index (the canonical decimal form of an integer
below `2^32 - 1`), and which. -/
def arrayIndex (k : JsString) : Option Nat :=
  match k with
  | [] => none
  | d :: ds =>
    if d = 48 ∧ ds ≠ [] then none
    else if k.all (fun c => decide (48 ≤ c ∧ c ≤ 57)) then
      let n := k.foldl (fun a c => 10 * a + (c - 48)) 0
      if n ≤ 4294967294 then some n else none
    else none

/-- Whether a new key `k` is enumerated before the existing key `k0`: array
indices come first, in ascending numeric order; other keys keep creation
order. -/
def keyBefore (k k0 : JsString) : Bool :=
  match arrayIndex k, arrayIndex k0 with
  | some n, some n0 => decide (n < n0)
  | some _, none => true
  | none, _ => false

/-- Creation of an own property, placed where `Object.keys` enumerates it. -/
def Object.define (o : JsObject Bool) (k : JsString) (v : Bool) : JsObject Bool :=
  match o with
  | [] => [(k, v)]
  | (k0, v0) :: rest =>
    if keyBefore k k0 then (k, v) :: (k0, v0) :: rest else (k0, v0) :: Object.define rest k v

/-- Assignment `o[k] = v` of a primitive value on a plain object. The key
`__proto__` resolves to the accessor inherited from `Object.prototype`, whose
setter ignores a value that is neither an object nor `null`: no own property is
created. -/
def Object.set (o : JsObject Bool) (k : JsString) (v : Bool) : JsObject Bool :=
  if k = js "__proto__" then o
  else if k ∈ Object.keys o then o.map (fun p => if p.1 = k then (k, v) else p)
  else Object.define o k v

/-- Method `Array.prototype.sort` without a comparator, on strings: ascending
by `strLt`. -/
def sort (xs : List JsString) : List JsString :=
  xs.insertionSort (fun a b => strLt b a = false)

/-- Getter `tags`. -/
def Influencer.tags (inf : Influencer) : Except JsError (List JsString) := do
  let videos ← inf.videos
  let tags := videos.foldl (fun tags video => video.tags.foldl (fun tags t => Object.set tags t true) tags) []
  pure (sort (Object.keys tags))

/-- Method `Array.prototype.indexOf`, scanning from position `i`. -/
def indexOfFrom (xs : List JsString) (x : JsString) (i : Nat) : Int :=
  match xs with
  | [] => -1
  | y :: ys => if y = x then (i : Int) else indexOfFrom ys x (i + 1)

/-- Method `Array.prototype.indexOf`: first index holding `x`, else `-1`. -/
def indexOf (xs : List JsString) (x : JsString) : Int := indexOfFrom xs x 0

/-- Method `getVideosForTag`. -/
def Influencer.getVideosForTag (inf : Influencer) (tag : JsString) : Except JsError (List Video) := do
  let videos ← inf.videos
  pure (videos.filter (fun video => decide (indexOf video.tags tag ≥ 0)))

/-- What `chooseVideoForTag` returns: `null`, a video, or `undefined` when the
loop ends without returning. -/
inductive Selection where
  | null
  | undefined
  | video (v : Video)
  deriving DecidableEq

/-- The selection loop, entered at index `i` with accumulator `acc` and the
videos from index `i` on: the index and the element returned, if any. -/
def selectLoop (randOfs : Double) : List Video → Nat → Double → Option (Nat × Video)
  | [], _, _ => none
  | v :: rest, i, acc =>
    if Double.gt (Double.add acc v.weight) randOfs = true then some (i, v)
    else selectLoop randOfs rest (i + 1) (Double.add acc v.weight)

/-- Expression `videos.reduce((acc, x) => acc + x.weight, 0)`. -/
def sumWeights (videos : List Video) : Double :=
  videos.foldl (fun acc x => Double.add acc x.weight) (Double.fin 0)

/-- Expression `Math.floor(u * sumWeigths)` for the draw `u = Math.random()`. -/
def randOfs (u : Double) (sumWeigths : Double) : Double :=
  Double.floor (Double.mul u sumWeigths)

/-- The part of `chooseVideoForTag` after the candidates are known. -/
def chooseAmong (videos : List Video) (u : Double) : Selection :=
  if videos.length = 0 then Selection.null
  else
    match selectLoop (randOfs u (sumWeights videos)) videos 0 (Double.fin 0) with
    | some (_, v) => Selection.video v
    | none => Selection.undefined

/-- Method `chooseVideoForTag`, with the draw `u = Math.random()`. -/
def Influencer.chooseVideoForTag (inf : Influencer) (tag : JsString) (u : Double) :
    Except JsError Selection := do
  let videos ← inf.getVideosForTag tag
  pure (chooseAmong videos u)

/-! ## Auxiliary definitions and sample data -/

/-- The list built by the `videos` getter from the video mapping `o`. -/
def videosOf (o : JsObject VideoRecord) : List Video := (videosFrom (Object.keys o) o).1

/-- The object `tags` after the two nested `forEach` loops of the `tags`
getter have run over `videos`, starting from the object `o`. -/
def collectTags (videos : List Video) (o : JsObject Bool) : JsObject Bool :=
  videos.foldl (fun tags video => video.tags.foldl (fun tags t => Object.set tags t true) tags) o

/-- A video of the given identifier, weight and tags; `location` plays no part
in the properties below. -/
def mkVideo (id : String) (weight : ℚ) (tags : List String) : Video :=
  { id := JsValue.string (js id), location := js "clip.mp4", weight := Double.fin weight,
    tags := tags.map js }

/-- The record from which `mkVideo` is built: it has no `id` of its own. -/
def mkRecord (weight : ℚ) (tags : List String) : VideoRecord :=
  { id := none, location := js "clip.mp4", weight := Double.fin weight, tags := tags.map js }

/-- A view on a record named `name` holding the given videos, in a catalog
loaded with that record alone. -/
def mkInfluencer (name : String) (videos : JsObject VideoRecord) : Influencer :=
  { playclips := PlayClips.initialize (PlayClips.constructor (js "clips"))
      [(js name, { name := js name, thumbnail := js "thumb.jpg", videos := videos })],
    ident := js name,
    data := Data.record { name := js name, thumbnail := js "thumb.jpg", videos := videos } }

/-- The record of `alice` in the scenario: videos `v1` (weight 1, tag `wave`)
and `v2` (weight 3, tags `wave` and `dance`). -/
def aliceRecord : InfluencerRecord :=
  { name := js "alice", thumbnail := js "thumb.jpg",
    videos := [(js "v1", mkRecord 1 ["wave"]), (js "v2", mkRecord 3 ["wave", "dance"])] }

/-- The metadata document of the scenario. -/
def sampleMetadata : Metadata := [(js "alice", aliceRecord)]

/-- A catalog on which `initialize` has stored `sampleMetadata`. -/
def sampleCatalog : PlayClips := PlayClips.initialize (PlayClips.constructor (js "clips")) sampleMetadata

/-- The view `sampleCatalog.getInfluencer("alice")`. -/
def alice : Influencer :=
  { playclips := sampleCatalog, ident := js "alice", data := Data.record aliceRecord }

/-- The entries of `alice.videos`. -/
def aliceV1 : Video := mkVideo "v1" 1 ["wave"]

/-- The second entry of `alice.videos`. -/
def aliceV2 : Video := mkVideo "v2" 3 ["wave", "dance"]

/-- A view whose two videos, both tagged `t`, have weights `0` and `-5`. -/
def bob : Influencer :=
  mkInfluencer "bob" [(js "w1", mkRecord 0 ["t"]), (js "w2", mkRecord (-5) ["t"])]

/-- The entries of `bob.videos`. -/
def bobW1 : Video := mkVideo "w1" 0 ["t"]

/-- The second entry of `bob.videos`. -/
def bobW2 : Video := mkVideo "w2" (-5) ["t"]

/-- A view whose two videos, both tagged `t`, have weights `0.25` and `0.75`. -/
def carol : Influencer :=
  mkInfluencer "carol" [(js "q1", mkRecord (1 / 4) ["t"]), (js "q2", mkRecord (3 / 4) ["t"])]

/-- The entries of `carol.videos`. -/
def carolQ1 : Video := mkVideo "q1" (1 / 4) ["t"]

/-- The second entry of `carol.videos`. -/
def carolQ2 : Video := mkVideo "q2" (3 / 4) ["t"]

/-- A view whose only video is tagged `__proto__`. -/
def dave : Influencer := mkInfluencer "dave" [(js "p1", mkRecord 1 ["__proto__"])]

/-- The entry of `dave.videos`. -/
def daveP1 : Video := mkVideo "p1" 1 ["__proto__"]

/-- A view whose two videos, both tagged `t`, have weight `2 ^ 1023` each (the
number written `8.98846567431158e307`). -/
def erin : Influencer :=
  mkInfluencer "erin" [(js "x1", mkRecord (2 ^ 1023) ["t"]), (js "x2", mkRecord (2 ^ 1023) ["t"])]

/-- The entries of `erin.videos`. -/
def erinX1 : Video := mkVideo "x1" (2 ^ 1023) ["t"]

/-- The second entry of `erin.videos`. -/
def erinX2 : Video := mkVideo "x2" (2 ^ 1023) ["t"]

/-- A video record with an `id` property of its own, the string `zzz`. -/
def ownIdRecord : VideoRecord :=
  { id := some (JsValue.string (js "zzz")), location := js "clip.mp4", weight := Double.fin 1,
    tags := [js "t"] }

/-- A view whose only video is `ownIdRecord`, stored under the key `v1`. -/
def frank : Influencer := mkInfluencer "frank" [(js "v1", ownIdRecord)]

/-- Three videos of weights `2 ^ 53`, `1` and `1`. -/
def hugeCandidates : List Video :=
  [mkVideo "a" (2 ^ 53) ["t"], mkVideo "b" 1 ["t"], mkVideo "c" 1 ["t"]]

/-! ## Base URL normalization -/

theorem charAt_last_eq_iff (s : JsString) (c : Nat) :
    charAt s ((s.length : Int) - 1) = [c] ↔ s.getLast? = some c := by
  rcases List.eq_nil_or_concat s with h | ⟨l, a, h⟩
  · subst h
    simp [charAt]
  · subst h
    have h1 : ((l.concat a).length : Int) - 1 = (l.length : Int) := by simp
    have h2 : ¬ ((l.length : Int) < 0) := by omega
    rw [h1]
    simp [charAt, h2]

theorem constructor_url_of_slash (s : JsString) (h : s.getLast? = some 47) :
    (PlayClips.constructor s).url = s := by
  have h1 := (charAt_last_eq_iff s 47).mpr h
  simp [PlayClips.constructor, h1]

theorem constructor_url_of_no_slash (s : JsString) (h : s.getLast? ≠ some 47) :
    (PlayClips.constructor s).url = s ++ [47] := by
  have h1 : charAt s ((s.length : Int) - 1) ≠ [47] := fun hc => h ((charAt_last_eq_iff s 47).mp hc)
  simp [PlayClips.constructor, h1]

/-- C7. The URL stored by the constructor always ends with the separator; a
base URL without trailing separator and the same URL with one appended give
the same stored URL and the same metadata address; a URL that already ends with
the separator is stored unchanged; normalizing twice changes nothing. -/
theorem constructor_url_normalization (s : JsString) :
    (PlayClips.constructor s).url.getLast? = some 47 ∧
    (s.getLast? ≠ some 47 →
      PlayClips.constructor s = PlayClips.constructor (s ++ [47]) ∧
      (PlayClips.constructor s).metadataUrl = s ++ js "/metadata.json" ∧
      (PlayClips.constructor (s ++ [47])).metadataUrl = s ++ js "/metadata.json") ∧
    (s.getLast? = some 47 → (PlayClips.constructor s).url = s) ∧
    (PlayClips.constructor (PlayClips.constructor s).url).url = (PlayClips.constructor s).url := by
  have hs : ∀ t : JsString, (t ++ [47]).getLast? = some 47 := fun t => by simp
  have hend : (PlayClips.constructor s).url.getLast? = some 47 := by
    by_cases h : s.getLast? = some 47
    · rw [constructor_url_of_slash s h]; exact h
    · rw [constructor_url_of_no_slash s h]; exact hs s
  refine ⟨hend, ?_, constructor_url_of_slash s, constructor_url_of_slash _ hend⟩
  intro h
  have e1 := constructor_url_of_no_slash s h
  have e2 := constructor_url_of_slash (s ++ [47]) (hs s)
  have hm : ∀ t : JsString, (PlayClips.constructor t).metadata = none := fun t => rfl
  refine ⟨?_, ?_, ?_⟩
  · have : ∀ a b : PlayClips, a.url = b.url → a.metadata = b.metadata → a = b := by
      intro a b h1 h2
      cases a; cases b; simp_all
    exact this _ _ (e1.trans e2.symm) ((hm s).trans (hm _).symm)
  · simp [PlayClips.metadataUrl, e1, js, utf16]
  · simp [PlayClips.metadataUrl, e2, js, utf16]

theorem constructor_url_normalization_witness :
    (PlayClips.constructor (js "http://h/clips")).url.getLast? = some 47 ∧
    ((js "http://h/clips").getLast? ≠ some 47 →
      PlayClips.constructor (js "http://h/clips") = PlayClips.constructor (js "http://h/clips" ++ [47]) ∧
      (PlayClips.constructor (js "http://h/clips")).metadataUrl
        = js "http://h/clips" ++ js "/metadata.json" ∧
      (PlayClips.constructor (js "http://h/clips" ++ [47])).metadataUrl
        = js "http://h/clips" ++ js "/metadata.json") ∧
    ((js "http://h/clips").getLast? = some 47 →
      (PlayClips.constructor (js "http://h/clips")).url = js "http://h/clips") ∧
    (PlayClips.constructor (PlayClips.constructor (js "http://h/clips")).url).url
      = (PlayClips.constructor (js "http://h/clips")).url :=
  constructor_url_normalization (js "http://h/clips")

/-! ## Derived video list -/

theorem getOwn_of_mem_keys {β : Type} (o : JsObject β) (k : JsString) (h : k ∈ Object.keys o) :
    ∃ v, Object.getOwn o k = some v ∧ (k, v) ∈ o := by
  induction o with
  | nil => simp [Object.keys] at h
  | cons p rest ih =>
    obtain ⟨k0, v0⟩ := p
    by_cases hk : k0 = k
    · exact ⟨v0, by simp [Object.getOwn, hk], by simp [hk]⟩
    · have h1 : k ∈ Object.keys rest := by
        simp only [Object.keys, List.map_cons, List.mem_cons] at h
        rcases h with h | h
        · exact absurd h.symm hk
        · exact h
      obtain ⟨v, hv, hm⟩ := ih h1
      exact ⟨v, by simp [Object.getOwn, hk, hv], List.mem_cons_of_mem _ hm⟩

theorem getOwn_eq_none {β : Type} (o : JsObject β) (k : JsString) (h : k ∉ Object.keys o) :
    Object.getOwn o k = none := by
  induction o with
  | nil => rfl
  | cons p rest ih =>
    obtain ⟨k0, v0⟩ := p
    simp only [Object.keys, List.map_cons, List.mem_cons, not_or] at h
    have hk : ¬ k0 = k := fun e => h.1 e.symm
    simp only [Object.getOwn, hk, if_false]
    exact ih h.2

theorem putOwn_getOwn {β : Type} (o : JsObject β) (k : JsString) (v : β)
    (h : Object.getOwn o k = some v) : Object.putOwn o k v = o := by
  induction o with
  | nil => rfl
  | cons p rest ih =>
    obtain ⟨k0, v0⟩ := p
    by_cases hk : k0 = k
    · simp only [Object.getOwn, hk, if_true, Option.some.injEq] at h
      simp [Object.putOwn, hk, h]
    · simp only [Object.getOwn, hk, if_false] at h
      simp [Object.putOwn, hk, ih h]

theorem videosFrom_spec (stored : JsObject VideoRecord) (ids : List JsString)
    (hids : ∀ k ∈ ids, k ∈ Object.keys stored) :
    (videosFrom ids stored).2 = stored ∧
    List.Forall₂ (fun k v => ∃ record, Object.getOwn stored k = some record ∧
        (k, record) ∈ stored ∧ v = (Object.assign k record).1)
      ids (videosFrom ids stored).1 := by
  induction ids with
  | nil => exact ⟨rfl, List.Forall₂.nil⟩
  | cons k rest ih =>
    obtain ⟨record, hrec, hmem⟩ := getOwn_of_mem_keys stored k (hids k (List.mem_cons_self _ _))
    obtain ⟨ih1, ih2⟩ := ih (fun x hx => hids x (List.mem_cons_of_mem _ hx))
    have hput : Object.putOwn stored k (Object.assign k record).2 = stored :=
      putOwn_getOwn stored k record hrec
    have hstep : videosFrom (k :: rest) stored
        = ((Object.assign k record).1 :: (videosFrom rest stored).1, (videosFrom rest stored).2) := by
      simp only [videosFrom, hrec, hput]
    rw [hstep]
    exact ⟨ih1, List.Forall₂.cons ⟨record, hrec, hmem, rfl⟩ ih2⟩

theorem videosRun_of_record (inf : Influencer) (r : InfluencerRecord)
    (h : inf.data = Data.record r) :
    Influencer.videosRun inf = Except.ok (videosOf r.videos, inf) := by
  have h2 := (videosFrom_spec r.videos (Object.keys r.videos) (fun _ hk => hk)).1
  obtain ⟨pc, ident, data⟩ := inf
  simp only at h
  subst h
  simp only [Influencer.videosRun, videosOf, h2]

theorem videos_of_record (inf : Influencer) (r : InfluencerRecord) (h : inf.data = Data.record r) :
    inf.videos = Except.ok (videosOf r.videos) := by
  simp only [Influencer.videos, videosRun_of_record inf r h]
  rfl

theorem videosOf_spec (o : JsObject VideoRecord) :
    List.Forall₂ (fun k v => ∃ record, Object.getOwn o k = some record ∧
        (k, record) ∈ o ∧ v = (Object.assign k record).1)
      (Object.keys o) (videosOf o) :=
  (videosFrom_spec o (Object.keys o) (fun _ hk => hk)).2

theorem videosOf_mem (o : JsObject VideoRecord) (v : Video) (hv : v ∈ videosOf o) :
    ∃ k record, (k, record) ∈ o ∧ v = (Object.assign k record).1 := by
  have h := videosOf_spec o
  generalize Object.keys o = ks at h
  generalize videosOf o = vs at h hv
  induction h with
  | nil => simp at hv
  | cons hd _ ih =>
    rcases List.mem_cons.mp hv with hv | hv
    · obtain ⟨record, _, hmem, hv2⟩ := hd
      exact ⟨_, record, hmem, hv.trans hv2⟩
    · exact ih hv

/-- C6, as the code has it. For an influencer whose data is the record `r`,
`videos` returns a list with one entry per key of `r.videos`, in `Object.keys`
order, and the entry for key `k` has the `location`, `weight` and `tags` of the
record stored under `k`; its `id` is `k` when that record has no `id` property
of its own, and the record's own `id` otherwise. The getter leaves the view,
and with it every stored record, as it was. -/
theorem videos_spec (inf : Influencer) (r : InfluencerRecord) (h : inf.data = Data.record r) :
    ∃ vs : List Video, inf.videos = Except.ok vs ∧
      Influencer.videosRun inf = Except.ok (vs, inf) ∧
      vs.length = (Object.keys r.videos).length ∧
      List.Forall₂ (fun k v => ∃ record, Object.getOwn r.videos k = some record ∧
          v.location = record.location ∧ v.weight = record.weight ∧ v.tags = record.tags ∧
          (record.id = none → v.id = JsValue.string k) ∧
          (∀ own, record.id = some own → v.id = own))
        (Object.keys r.videos) vs := by
  have hspec := videosOf_spec r.videos
  refine ⟨videosOf r.videos, videos_of_record inf r h, videosRun_of_record inf r h,
    hspec.length_eq.symm, ?_⟩
  refine hspec.imp ?_
  rintro k v ⟨record, hrec, _, hv⟩
  refine ⟨record, hrec, ?_, ?_, ?_, ?_, ?_⟩
  · rw [hv]; rfl
  · rw [hv]; rfl
  · rw [hv]; rfl
  · intro hnone
    rw [hv]
    simp [Object.assign, hnone]
  · intro own hown
    rw [hv]
    simp [Object.assign, hown]

theorem videos_spec_witness :
    alice.data = Data.record aliceRecord ∧
    ∃ vs : List Video, alice.videos = Except.ok vs ∧
      Influencer.videosRun alice = Except.ok (vs, alice) ∧
      vs.length = (Object.keys aliceRecord.videos).length ∧
      List.Forall₂ (fun k v => ∃ record, Object.getOwn aliceRecord.videos k = some record ∧
          v.location = record.location ∧ v.weight = record.weight ∧ v.tags = record.tags ∧
          (record.id = none → v.id = JsValue.string k) ∧
          (∀ own, record.id = some own → v.id = own))
        (Object.keys aliceRecord.videos) vs :=
  ⟨rfl, videos_spec alice aliceRecord rfl⟩

/-- C6 as stated fails on a record with an `id` of its own: the only video of
`frank` is stored under the key `v1` and its record has the own property
`id: "zzz"`; the entry `videos` builds for it has `id` equal to `zzz`, not to
the key. -/
theorem videos_own_id_counterexample :
    frank.data = Data.record
      { name := js "frank", thumbnail := js "thumb.jpg", videos := [(js "v1", ownIdRecord)] } ∧
    Object.keys [(js "v1", ownIdRecord)] = [js "v1"] ∧
    frank.videos = Except.ok [mkVideo "zzz" 1 ["t"]] ∧
    (mkVideo "zzz" 1 ["t"]).id ≠ JsValue.string (js "v1") := by
  decide

/-! ## Videos for a tag -/

theorem indexOfFrom_nonneg_iff (xs : List JsString) (x : JsString) (i : Nat) :
    indexOfFrom xs x i ≥ 0 ↔ x ∈ xs := by
  induction xs generalizing i with
  | nil => simp [indexOfFrom]
  | cons y ys ih =>
    by_cases hy : y = x
    · simp [indexOfFrom, hy]
    · have hx : ¬ x = y := fun e => hy e.symm
      simp [indexOfFrom, hy, hx, ih]

theorem indexOf_nonneg_iff (xs : List JsString) (x : JsString) : indexOf xs x ≥ 0 ↔ x ∈ xs :=
  indexOfFrom_nonneg_iff xs x 0

theorem getVideosForTag_of_record (inf : Influencer) (r : InfluencerRecord)
    (h : inf.data = Data.record r) (tag : JsString) :
    inf.getVideosForTag tag
      = Except.ok ((videosOf r.videos).filter (fun v => decide (tag ∈ v.tags))) := by
  have hf : (fun video : Video => decide (indexOf video.tags tag ≥ 0))
      = (fun v : Video => decide (tag ∈ v.tags)) := by
    funext v
    simp only [indexOf_nonneg_iff]
  simp only [Influencer.getVideosForTag, videos_of_record inf r h, hf]
  rfl

theorem chooseVideoForTag_of_record (inf : Influencer) (r : InfluencerRecord)
    (h : inf.data = Data.record r) (tag : JsString) (u : Double) :
    inf.chooseVideoForTag tag u
      = Except.ok (chooseAmong ((videosOf r.videos).filter (fun v => decide (tag ∈ v.tags))) u) := by
  simp only [Influencer.chooseVideoForTag, getVideosForTag_of_record inf r h]
  rfl

/-- C4. For an influencer whose data is the record `r`, `getVideosForTag(tag)` is
`videos` filtered, in order, to the videos whose tag list contains `tag`; it is
a sublist of `videos` and holds exactly the videos carrying the tag. When the
tag occurs in the tag list of no stored video, `getVideosForTag(tag)` is the
empty list and `chooseVideoForTag(tag)` is `null` for every draw. -/
theorem getVideosForTag_spec (inf : Influencer) (r : InfluencerRecord)
    (h : inf.data = Data.record r) (tag : JsString) :
    ∃ vs res : List Video, inf.videos = Except.ok vs ∧ inf.getVideosForTag tag = Except.ok res ∧
      res = vs.filter (fun v => decide (tag ∈ v.tags)) ∧
      res.Sublist vs ∧
      (∀ v, v ∈ res ↔ v ∈ vs ∧ tag ∈ v.tags) ∧
      ((∀ p ∈ r.videos, tag ∉ p.2.tags) →
        res = [] ∧
        ∀ u : Double,
          inf.chooseVideoForTag tag u = Except.ok Selection.null) := by
  refine ⟨videosOf r.videos, _, videos_of_record inf r h, getVideosForTag_of_record inf r h tag,
    rfl, List.filter_sublist _, ?_, ?_⟩
  · intro v
    simp [List.mem_filter]
  · intro hno
    have hempty : (videosOf r.videos).filter (fun v => decide (tag ∈ v.tags)) = [] := by
      rw [List.filter_eq_nil_iff]
      intro v hv
      obtain ⟨k, record, hmem, hv2⟩ := videosOf_mem r.videos v hv
      have := hno _ hmem
      rw [hv2]
      simpa [Object.assign] using this
    refine ⟨hempty, ?_⟩
    intro u
    rw [chooseVideoForTag_of_record inf r h tag u, hempty]
    simp [chooseAmong]

theorem getVideosForTag_spec_witness :
    alice.data = Data.record aliceRecord ∧
    (∀ p ∈ aliceRecord.videos, js "jump" ∉ p.2.tags) ∧
    ∃ vs res : List Video, alice.videos = Except.ok vs ∧
      alice.getVideosForTag (js "jump") = Except.ok res ∧
      res = vs.filter (fun v => decide (js "jump" ∈ v.tags)) ∧
      res.Sublist vs ∧
      (∀ v, v ∈ res ↔ v ∈ vs ∧ js "jump" ∈ v.tags) ∧
      ((∀ p ∈ aliceRecord.videos, js "jump" ∉ p.2.tags) →
        res = [] ∧
        ∀ u : Double,
          alice.chooseVideoForTag (js "jump") u = Except.ok Selection.null) :=
  ⟨rfl, by decide, getVideosForTag_spec alice aliceRecord rfl (js "jump")⟩

/-! ## Catalog queries -/

theorem mapM_ok {ε κ β : Type} (g : κ → β) (l : List κ) :
    l.mapM (fun k => (Except.ok (g k) : Except ε β)) = Except.ok (l.map g) := by
  induction l with
  | nil => rfl
  | cons a rest ih =>
    rw [List.mapM_cons, ih]
    rfl

theorem getInfluencer_of_loaded (pc : PlayClips) (metadata : Metadata)
    (h : pc.metadata = some metadata) (ident : JsString) :
    pc.getInfluencer ident
      = Except.ok { playclips := pc, ident := ident, data := Object.get metadata ident } := by
  simp [PlayClips.getInfluencer, Influencer.constructor, h]

theorem getInfluencers_of_loaded (pc : PlayClips) (metadata : Metadata)
    (h : pc.metadata = some metadata) :
    pc.getInfluencers = Except.ok ((Object.keys metadata).map
      (fun k => { playclips := pc, ident := k, data := Object.get metadata k })) := by
  have hf : (fun k => pc.getInfluencer k)
      = (fun k => (Except.ok { playclips := pc, ident := k, data := Object.get metadata k } :
          Except JsError Influencer)) := by
    funext k
    exact getInfluencer_of_loaded pc metadata h k
  simp only [PlayClips.getInfluencers, h, hf]
  exact mapM_ok _ _

/-- C9, as the code has it. On a freshly constructed catalog (metadata still
`null`) `getInfluencers` raises a `TypeError`, the only error the code can
raise, and returns no sequence. Once `initialize` has stored a metadata
document it returns one view per key of the document, in `Object.keys` order,
each carrying its key as `ident`, the catalog as `playclips` and the record
stored under the key as `data`. -/
theorem getInfluencers_spec :
    (∀ baseUrl : JsString,
      (PlayClips.constructor baseUrl).getInfluencers = Except.error JsError.TypeError) ∧
    (∀ (pc : PlayClips) (metadata : Metadata),
      ∃ views : List Influencer, PlayClips.getInfluencers ( PlayClips.initialize pc metadata) = Except.ok views ∧
        views.length = (Object.keys metadata).length ∧
        views.map Influencer.ident = Object.keys metadata ∧
        ∀ inf ∈ views, inf.playclips = PlayClips.initialize pc metadata ∧
          ∃ r, Object.getOwn metadata inf.ident = some r ∧ inf.data = Data.record r) := by
  refine ⟨fun baseUrl => rfl, ?_⟩
  intro pc metadata
  refine ⟨_, getInfluencers_of_loaded ( PlayClips.initialize pc metadata) metadata rfl, ?_, ?_, ?_⟩
  · simp
  · simp [List.map_map, Function.comp_def]
  · intro inf hinf
    obtain ⟨k, hk, rfl⟩ := List.mem_map.mp hinf
    obtain ⟨r, hr, _⟩ := getOwn_of_mem_keys metadata k hk
    exact ⟨rfl, r, hr, by simp [Object.get, hr]⟩

/-- C9 as stated fails: before any load `getInfluencers` raises a `TypeError`,
not a `NotLoadedError`. -/
theorem getInfluencers_not_loaded_counterexample :
    (PlayClips.constructor (js "clips")).metadata = none ∧
    (PlayClips.constructor (js "clips")).getInfluencers = Except.error JsError.TypeError ∧
    (PlayClips.constructor (js "clips")).getInfluencers ≠ Except.error JsError.NotLoadedError := by
  decide

theorem not_mem_objectPrototypeNames (ident : JsString) (h : ident ∉ objectPrototypeNames) :
    ident ≠ js "__proto__" ∧ ident ≠ js "constructor" := by
  constructor
  · intro e
    exact h (by rw [e]; decide)
  · intro e
    exact h (by rw [e]; decide)

/-- C8, as the code has it. On a loaded catalog, for an identifier that is not
a key of the metadata, `getInfluencer` itself does not fail: it returns a view
whose `data` is not an influencer record. Dereferencing that view through
`videos`, `tags`, `getVideosForTag` or `chooseVideoForTag` raises a `TypeError`
whatever the arguments, and so do `name` and `thumbnail` unless the identifier
names a property inherited from `Object.prototype`. -/
theorem getInfluencer_unknown (pc : PlayClips) (metadata : Metadata)
    (hloaded : pc.metadata = some metadata) (ident : JsString)
    (hkey : ident ∉ Object.keys metadata) :
    ∃ inf : Influencer, pc.getInfluencer ident = Except.ok inf ∧
      inf.ident = ident ∧
      (∀ r, inf.data ≠ Data.record r) ∧
      inf.videos = Except.error JsError.TypeError ∧
      inf.tags = Except.error JsError.TypeError ∧
      (∀ tag, inf.getVideosForTag tag = Except.error JsError.TypeError) ∧
      (∀ (tag : JsString) (u : Double),
        inf.chooseVideoForTag tag u = Except.error JsError.TypeError) ∧
      (ident ∉ objectPrototypeNames →
        inf.name = Except.error JsError.TypeError ∧
        inf.thumbnail = Except.error JsError.TypeError) := by
  have hown := getOwn_eq_none metadata ident hkey
  have hdata : ∀ r, Object.get metadata ident ≠ Data.record r := by
    intro r
    simp only [Object.get, hown]
    split_ifs <;> simp
  have hvideos : ∀ inf : Influencer, (∀ r, inf.data ≠ Data.record r) →
      inf.videos = Except.error JsError.TypeError := by
    intro inf hinf
    have hrun : Influencer.videosRun inf = Except.error JsError.TypeError := by
      unfold Influencer.videosRun
      split
      · next r hr => exact absurd hr (hinf r)
      · rfl
    simp only [Influencer.videos, hrun]
    rfl
  have hv := hvideos { playclips := pc, ident := ident, data := Object.get metadata ident } hdata
  refine ⟨_, getInfluencer_of_loaded pc metadata hloaded ident, rfl, hdata, hv, ?_, ?_, ?_, ?_⟩
  · simp only [Influencer.tags, hv]
    rfl
  · intro tag
    simp only [Influencer.getVideosForTag, hv]
    rfl
  · intro tag u
    simp only [Influencer.chooseVideoForTag, Influencer.getVideosForTag, hv]
    rfl
  · intro hproto
    obtain ⟨h1, h2⟩ := not_mem_objectPrototypeNames ident hproto
    have hd : Object.get metadata ident = Data.undefined := by
      simp [Object.get, hown, h1, h2, hproto]
    simp [Influencer.name, Influencer.thumbnail, hd]

theorem getInfluencer_unknown_witness :
    sampleCatalog.metadata = some sampleMetadata ∧
    js "ghost" ∉ Object.keys sampleMetadata ∧
    js "ghost" ∉ objectPrototypeNames ∧
    ∃ inf : Influencer, sampleCatalog.getInfluencer (js "ghost") = Except.ok inf ∧
      inf.ident = js "ghost" ∧
      (∀ r, inf.data ≠ Data.record r) ∧
      inf.videos = Except.error JsError.TypeError ∧
      inf.tags = Except.error JsError.TypeError ∧
      (∀ tag, inf.getVideosForTag tag = Except.error JsError.TypeError) ∧
      (∀ (tag : JsString) (u : Double),
        inf.chooseVideoForTag tag u = Except.error JsError.TypeError) ∧
      (js "ghost" ∉ objectPrototypeNames →
        inf.name = Except.error JsError.TypeError ∧
        inf.thumbnail = Except.error JsError.TypeError) :=
  ⟨rfl, by decide, by decide,
    getInfluencer_unknown sampleCatalog sampleMetadata rfl (js "ghost") (by decide)⟩

/-- C8 as stated fails on `sampleCatalog`, which has no key `ghost` and no key
`constructor`: `getInfluencer("ghost")` returns a view, and reading its `name`
raises a `TypeError`, not an `UnknownInfluencerError`; `getInfluencer` of
`constructor` returns a view whose `name` is the string `Object`. -/
theorem getInfluencer_unknown_counterexample :
    js "ghost" ∉ Object.keys sampleMetadata ∧
    js "constructor" ∉ Object.keys sampleMetadata ∧
    sampleCatalog.getInfluencer (js "ghost")
      = Except.ok { playclips := sampleCatalog, ident := js "ghost", data := Data.undefined } ∧
    sampleCatalog.getInfluencer (js "ghost") ≠ Except.error JsError.UnknownInfluencerError ∧
    Influencer.name { playclips := sampleCatalog, ident := js "ghost", data := Data.undefined }
      = Except.error JsError.TypeError ∧
    Influencer.name { playclips := sampleCatalog, ident := js "ghost", data := Data.undefined }
      ≠ Except.error JsError.UnknownInfluencerError ∧
    (sampleCatalog.getInfluencer (js "constructor")).bind Influencer.name
      = Except.ok (some (js "Object")) := by
  decide

/-! ## Rounding -/

theorem rne_le_of_le (x : ℚ) (n : Int) (h : x ≤ n) : rne x ≤ n := by
  have h1 : (⌊x⌋ : ℚ) ≤ x := Int.floor_le x
  have h2 : ⌊x⌋ ≤ n := by exact_mod_cast le_trans h1 h
  unfold rne
  split_ifs with c1 c2 c3
  · exact h2
  · have : (⌊x⌋ : ℚ) < n := by linarith
    have : ⌊x⌋ < n := by exact_mod_cast this
    omega
  · exact h2
  · have : (⌊x⌋ : ℚ) < n := by linarith
    have : ⌊x⌋ < n := by exact_mod_cast this
    omega

theorem le_rne_of_le (x : ℚ) (n : Int) (h : (n : ℚ) ≤ x) : n ≤ rne x := by
  have h2 : n ≤ ⌊x⌋ := Int.le_floor.mpr h
  unfold rne
  split_ifs <;> omega

theorem rne_intCast (n : Int) : rne (n : ℚ) = n :=
  le_antisymm (rne_le_of_le _ n le_rfl) (le_rne_of_le _ n le_rfl)

theorem abs_rne_sub_le (x : ℚ) : |(rne x : ℚ) - x| ≤ 1 / 2 := by
  have h1 : (⌊x⌋ : ℚ) ≤ x := Int.floor_le x
  have h2 : x < (⌊x⌋ : ℚ) + 1 := Int.lt_floor_add_one x
  unfold rne
  rw [abs_le]
  split_ifs with c1 c2 c3
  · constructor <;> linarith
  · push_cast
    constructor <;> linarith
  · constructor <;> linarith
  · push_cast
    constructor <;> linarith

theorem quantum_ge (q : ℚ) : -1074 ≤ quantum q := le_max_right _ _

theorem two_zpow_pos (e : Int) : (0 : ℚ) < (2 : ℚ) ^ e := zpow_pos (by norm_num) e

theorem abs_lt_zpow_quantum (q : ℚ) : |q| < (2 : ℚ) ^ (quantum q + 53) := by
  have h1 : |q| < ((2 : ℕ) : ℚ) ^ (Int.log 2 |q| + 1) := Int.lt_zpow_succ_log_self (by norm_num) _
  have h2 : Int.log 2 |q| + 1 ≤ quantum q + 53 := by
    have : Int.log 2 |q| - 52 ≤ quantum q := le_max_left _ _
    omega
  have h3 : ((2 : ℕ) : ℚ) ^ (Int.log 2 |q| + 1) ≤ (2 : ℚ) ^ (quantum q + 53) := by
    rw [Nat.cast_ofNat]
    exact zpow_le_zpow_right₀ (by norm_num) h2
  exact lt_of_lt_of_le h1 h3

theorem zpow_quantum_le_abs (q : ℚ) (hq : q ≠ 0) (h : -1074 < quantum q) :
    (2 : ℚ) ^ (quantum q + 52) ≤ |q| := by
  have h1 : quantum q = Int.log 2 |q| - 52 := by
    unfold quantum at h ⊢
    rcases max_cases (Int.log 2 |q| - 52) (-1074) with ⟨h2, _⟩ | ⟨h2, _⟩
    · exact h2
    · rw [h2] at h
      omega
  have h2 : ((2 : ℕ) : ℚ) ^ Int.log 2 |q| ≤ |q| :=
    Int.zpow_log_le_self (by norm_num) (abs_pos.mpr hq)
  rw [Nat.cast_ofNat] at h2
  have h3 : quantum q + 52 = Int.log 2 |q| := by omega
  rw [h3]
  exact h2



theorem roundQ_le_grid (q : ℚ) (n : Int) (h : q ≤ (n : ℚ) * (2 : ℚ) ^ quantum q) :
    roundQ q ≤ (n : ℚ) * (2 : ℚ) ^ quantum q := by
  have hp := two_zpow_pos (quantum q)
  have h1 : q / (2 : ℚ) ^ quantum q ≤ n := (div_le_iff₀ hp).mpr h
  have h2 : ((rne (q / (2 : ℚ) ^ quantum q) : Int) : ℚ) ≤ n := by
    exact_mod_cast rne_le_of_le _ n h1
  unfold roundQ
  exact mul_le_mul_of_nonneg_right h2 (le_of_lt hp)

theorem grid_le_roundQ (q : ℚ) (n : Int) (h : (n : ℚ) * (2 : ℚ) ^ quantum q ≤ q) :
    (n : ℚ) * (2 : ℚ) ^ quantum q ≤ roundQ q := by
  have hp := two_zpow_pos (quantum q)
  have h1 : (n : ℚ) ≤ q / (2 : ℚ) ^ quantum q := (le_div_iff₀ hp).mpr h
  have h2 : (n : ℚ) ≤ ((rne (q / (2 : ℚ) ^ quantum q) : Int) : ℚ) := by
    exact_mod_cast le_rne_of_le _ n h1
  unfold roundQ
  exact mul_le_mul_of_nonneg_right h2 (le_of_lt hp)

theorem roundQ_zero : roundQ 0 = 0 := by
  have h : rne ((0 : Int) : ℚ) = 0 := rne_intCast 0
  simp only [Int.cast_zero] at h
  simp [roundQ, h]

/-- A representable number whose exponent is at least the quantum of `q` is a
multiple of that quantum. -/
theorem representable_on_grid (q : ℚ) (m ea : Int) (h : quantum q ≤ ea) :
    ∃ n : Int, (m : ℚ) * (2 : ℚ) ^ ea = (n : ℚ) * (2 : ℚ) ^ quantum q := by
  obtain ⟨k, hk⟩ := Int.eq_ofNat_of_zero_le (sub_nonneg.mpr h)
  refine ⟨m * 2 ^ k, ?_⟩
  have h1 : ea = (k : Int) + quantum q := by omega
  rw [h1, zpow_add₀ (by norm_num : (2 : ℚ) ≠ 0), zpow_natCast]
  push_cast
  ring

/-- A representable number whose exponent is below the quantum of `q` is at
most `2 ^ 52` quanta in size, and `q` is at least that. -/
theorem representable_small (q : ℚ) (hq : q ≠ 0) (m ea : Int) (hm : |m| ≤ 2 ^ 53)
    (h : ea < quantum q) (hea : -1074 ≤ ea) :
    |(m : ℚ) * (2 : ℚ) ^ ea| ≤ (2 : ℚ) ^ (quantum q + 52) ∧
    (2 : ℚ) ^ (quantum q + 52) ≤ |q| := by
  have hgt : -1074 < quantum q := by omega
  refine ⟨?_, zpow_quantum_le_abs q hq hgt⟩
  have hp := two_zpow_pos ea
  rw [abs_mul, abs_of_pos hp]
  have h1 : |(m : ℚ)| ≤ 2 ^ 53 := by
    have : ((|m| : Int) : ℚ) ≤ ((2 ^ 53 : Int) : ℚ) := by exact_mod_cast hm
    simpa using this
  have h2 : (2 : ℚ) ^ (53 : ℕ) * (2 : ℚ) ^ ea = (2 : ℚ) ^ (ea + 53) := by
    rw [zpow_add₀ (by norm_num : (2 : ℚ) ≠ 0)]
    norm_num
    ring
  have h3 : (2 : ℚ) ^ (ea + 53) ≤ (2 : ℚ) ^ (quantum q + 52) :=
    zpow_le_zpow_right₀ (by norm_num) (by omega)
  calc |(m : ℚ)| * (2 : ℚ) ^ ea ≤ (2 : ℚ) ^ (53 : ℕ) * (2 : ℚ) ^ ea :=
        mul_le_mul_of_nonneg_right h1 (le_of_lt hp)
    _ = (2 : ℚ) ^ (ea + 53) := h2
    _ ≤ (2 : ℚ) ^ (quantum q + 52) := h3

theorem zpow_quantum_add (q : ℚ) :
    (2 : ℚ) ^ (quantum q + 52) = ((2 ^ 52 : Int) : ℚ) * (2 : ℚ) ^ quantum q := by
  rw [zpow_add₀ (by norm_num : (2 : ℚ) ≠ 0)]
  norm_num
  ring

/-- Rounding never passes a representable number above. -/
theorem roundQ_le (q a : ℚ) (ha : Representable a) (hqa : q ≤ a) : roundQ q ≤ a := by
  obtain ⟨m, ea, hm, hea, rfl⟩ := ha
  by_cases hq : q = 0
  · subst hq
    rw [roundQ_zero]
    exact hqa
  by_cases hcase : quantum q ≤ ea
  · obtain ⟨n, hn⟩ := representable_on_grid q m ea hcase
    rw [hn] at hqa ⊢
    exact roundQ_le_grid q n hqa
  · obtain ⟨h1, h2⟩ := representable_small q hq m ea hm (by omega) hea
    have h3 := zpow_quantum_add q
    rcases lt_or_gt_of_ne hq with hneg | hpos
    · rw [abs_of_neg hneg] at h2
      have h4 : roundQ q ≤ ((-(2 ^ 52) : Int) : ℚ) * (2 : ℚ) ^ quantum q := by
        apply roundQ_le_grid
        push_cast
        push_cast at h3
        linarith
      have h5 := neg_abs_le ((m : ℚ) * (2 : ℚ) ^ ea)
      push_cast at h4 h3
      linarith
    · rw [abs_of_pos hpos] at h2
      have h4 : roundQ q ≤ ((2 ^ 52 : Int) : ℚ) * (2 : ℚ) ^ quantum q := by
        apply roundQ_le_grid
        have h5 := le_abs_self ((m : ℚ) * (2 : ℚ) ^ ea)
        linarith
      linarith

/-- Rounding never passes a representable number below. -/
theorem le_roundQ (q a : ℚ) (ha : Representable a) (haq : a ≤ q) : a ≤ roundQ q := by
  obtain ⟨m, ea, hm, hea, rfl⟩ := ha
  by_cases hq : q = 0
  · subst hq
    rw [roundQ_zero]
    exact haq
  by_cases hcase : quantum q ≤ ea
  · obtain ⟨n, hn⟩ := representable_on_grid q m ea hcase
    rw [hn] at haq ⊢
    exact grid_le_roundQ q n haq
  · obtain ⟨h1, h2⟩ := representable_small q hq m ea hm (by omega) hea
    have h3 := zpow_quantum_add q
    rcases lt_or_gt_of_ne hq with hneg | hpos
    · rw [abs_of_neg hneg] at h2
      have h4 : ((-(2 ^ 52) : Int) : ℚ) * (2 : ℚ) ^ quantum q ≤ roundQ q := by
        apply grid_le_roundQ
        have h5 := neg_abs_le ((m : ℚ) * (2 : ℚ) ^ ea)
        push_cast
        push_cast at h3
        linarith
      push_cast at h4 h3
      linarith
    · rw [abs_of_pos hpos] at h2
      have h4 : ((2 ^ 52 : Int) : ℚ) * (2 : ℚ) ^ quantum q ≤ roundQ q := by
        apply grid_le_roundQ
        linarith
      have h5 := le_abs_self ((m : ℚ) * (2 : ℚ) ^ ea)
      linarith

/-- Rounding leaves a representable number unchanged. -/
theorem roundQ_of_representable (a : ℚ) (ha : Representable a) : roundQ a = a :=
  le_antisymm (roundQ_le a a ha le_rfl) (le_roundQ a a ha le_rfl)

/-- The result of rounding is representable. -/
theorem representable_roundQ (q : ℚ) : Representable (roundQ q) := by
  refine ⟨rne (q / (2 : ℚ) ^ quantum q), quantum q, ?_, quantum_ge q, rfl⟩
  have hp := two_zpow_pos (quantum q)
  have h1 := abs_lt_zpow_quantum q
  have h2 : (2 : ℚ) ^ (quantum q + 53) = ((2 ^ 53 : Int) : ℚ) * (2 : ℚ) ^ quantum q := by
    rw [zpow_add₀ (by norm_num : (2 : ℚ) ≠ 0)]
    norm_num
    ring
  rw [h2, abs_lt] at h1
  rw [abs_le]
  constructor
  · apply le_rne_of_le
    rw [le_div_iff₀ hp]
    push_cast
    push_cast at h1
    linarith [h1.1]
  · apply rne_le_of_le
    rw [div_le_iff₀ hp]
    push_cast at h1 ⊢
    linarith [h1.2]

theorem representable_intCast (n : Int) (h : |n| ≤ 2 ^ 53) : Representable (n : ℚ) :=
  ⟨n, 0, h, by norm_num, by simp⟩

theorem representable_zero : Representable 0 :=
  ⟨0, 0, by norm_num, by norm_num, by simp⟩

theorem roundQ_nonneg (q : ℚ) (h : 0 ≤ q) : 0 ≤ roundQ q :=
  le_roundQ q 0 representable_zero h

theorem round_eq_fin (q : ℚ) (h : |roundQ q| < (2 : ℚ) ^ (1024 : Nat)) :
    round q = Double.fin (roundQ q) := by
  rw [abs_lt] at h
  unfold round
  rw [if_neg (not_le.mpr h.2), if_neg (not_le.mpr h.1)]

theorem round_of_representable (a : ℚ) (ha : Representable a)
    (hb : |a| < (2 : ℚ) ^ (1024 : Nat)) : round a = Double.fin a := by
  have h := roundQ_of_representable a ha
  rw [round_eq_fin a (by rw [h]; exact hb), h]

theorem round_cases (q : ℚ) :
    (round q = Double.posInf ∧ (2 : ℚ) ^ (1024 : Nat) ≤ roundQ q) ∨
    (round q = Double.negInf ∧ roundQ q ≤ -(2 : ℚ) ^ (1024 : Nat)) ∨
    (round q = Double.fin (roundQ q) ∧ |roundQ q| < (2 : ℚ) ^ (1024 : Nat)) := by
  unfold round
  by_cases h1 : (2 : ℚ) ^ (1024 : Nat) ≤ roundQ q
  · exact Or.inl ⟨by rw [if_pos h1], h1⟩
  · by_cases h2 : roundQ q ≤ -(2 : ℚ) ^ (1024 : Nat)
    · exact Or.inr (Or.inl ⟨by rw [if_neg h1, if_pos h2], h2⟩)
    · refine Or.inr (Or.inr ⟨by rw [if_neg h1, if_neg h2], ?_⟩)
      rw [abs_lt]
      exact ⟨not_le.mp h2, not_le.mp h1⟩

theorem isValue_round (q : ℚ) : Double.IsValue (round q) := by
  intro a ha
  rcases round_cases q with ⟨h, _⟩ | ⟨h, _⟩ | ⟨h, hb⟩
  · rw [h] at ha
    exact Double.noConfusion ha
  · rw [h] at ha
    exact Double.noConfusion ha
  · rw [h] at ha
    have : roundQ q = a := Double.fin.inj ha
    rw [← this]
    exact ⟨representable_roundQ q, hb⟩

theorem isValue_of_round_eq (t : ℚ) (h : round t = Double.fin t) :
    Representable t ∧ |t| < (2 : ℚ) ^ (1024 : Nat) :=
  isValue_round t t h

theorem isValue_zero : Double.IsValue (Double.fin 0) := by
  intro a ha
  have : (0 : ℚ) = a := Double.fin.inj ha
  rw [← this]
  exact ⟨representable_zero, by norm_num⟩

theorem isValue_add (x y : Double) (hx : Double.IsValue x) : Double.IsValue (Double.add x y) := by
  cases x with
  | nan => exact fun a ha => Double.noConfusion ha
  | posInf =>
    cases y <;> exact fun a ha => Double.noConfusion ha
  | negInf =>
    cases y <;> exact fun a ha => Double.noConfusion ha
  | fin a0 =>
    cases y with
    | fin b => exact isValue_round (a0 + b)
    | nan => exact fun a ha => Double.noConfusion ha
    | posInf => exact fun a ha => Double.noConfusion ha
    | negInf => exact fun a ha => Double.noConfusion ha

/-! ## The selection loop -/

theorem gt_nan_right (x : Double) : Double.gt x Double.nan = false := by
  cases x <;> rfl

theorem gt_posInf_right (x : Double) : Double.gt x Double.posInf = false := by
  cases x <;> rfl

theorem chooseVideoForTag_of_candidates (inf : Influencer) (tag : JsString) (cands : List Video)
    (hc : inf.getVideosForTag tag = Except.ok cands) (u : Double) :
    inf.chooseVideoForTag tag u = Except.ok (chooseAmong cands u) := by
  simp only [Influencer.chooseVideoForTag, hc]
  rfl

theorem selectLoop_index_ge (r : Double) (vs : List Video) (i : Nat) (acc : Double) (j : Nat)
    (v : Video) (h : selectLoop r vs i acc = some (j, v)) : i ≤ j := by
  induction vs generalizing i acc with
  | nil => simp [selectLoop] at h
  | cons w rest ih =>
    unfold selectLoop at h
    by_cases hgt : Double.gt (Double.add acc w.weight) r = true
    · rw [if_pos hgt] at h
      simp only [Option.some.injEq, Prod.mk.injEq] at h
      omega
    · rw [if_neg hgt] at h
      have := ih (i + 1) _ h
      omega

/-- The offset computed from a draw and a total that are both at least zero is
`NaN`, `+Infinity` or a finite number that is at least zero. -/
theorem randOfs_of_nonneg (u s : Double) (hu : Double.ge u (Double.fin 0) = true)
    (hs : Double.ge s (Double.fin 0) = true) :
    randOfs u s = Double.nan ∨ randOfs u s = Double.posInf ∨
      ∃ x : ℚ, 0 ≤ x ∧ randOfs u s = Double.fin x := by
  have hinf : ∀ b : ℚ, 0 ≤ b → Double.floor (Double.mulInf true b) = Double.nan ∨
      Double.floor (Double.mulInf true b) = Double.posInf := by
    intro b hb
    by_cases hb0 : b = 0
    · left
      simp [Double.mulInf, hb0, Double.floor]
    · right
      have : 0 < b := lt_of_le_of_ne hb (Ne.symm hb0)
      simp [Double.mulInf, hb0, this, Double.floor]
  cases u with
  | nan => simp [Double.ge] at hu
  | negInf => simp [Double.ge] at hu
  | posInf =>
    cases s with
    | nan => simp [Double.ge] at hs
    | negInf => simp [Double.ge] at hs
    | posInf => exact Or.inr (Or.inl rfl)
    | fin b =>
      have hb : 0 ≤ b := by simpa [Double.ge] using hs
      rcases hinf b hb with h | h
      · exact Or.inl h
      · exact Or.inr (Or.inl h)
  | fin a =>
    have ha : 0 ≤ a := by simpa [Double.ge] using hu
    cases s with
    | nan => simp [Double.ge] at hs
    | negInf => simp [Double.ge] at hs
    | posInf =>
      rcases hinf a ha with h | h
      · exact Or.inl h
      · exact Or.inr (Or.inl h)
    | fin b =>
      have hb : 0 ≤ b := by simpa [Double.ge] using hs
      have hq := roundQ_nonneg (a * b) (mul_nonneg ha hb)
      have hmul : Double.mul (Double.fin a) (Double.fin b) = round (a * b) := rfl
      rcases round_cases (a * b) with ⟨h, _⟩ | ⟨_, h⟩ | ⟨h, _⟩
      · right; left
        simp [randOfs, hmul, h, Double.floor]
      · exfalso
        have : (0 : ℚ) < (2 : ℚ) ^ (1024 : Nat) := by positivity
        linarith
      · right; right
        refine ⟨((⌊roundQ (a * b)⌋ : Int) : ℚ), ?_, ?_⟩
        · exact_mod_cast Int.floor_nonneg.mpr hq
        · simp [randOfs, hmul, h, Double.floor]

/-- One step of the loop: when the accumulator does not exceed the offset and
adding a weight makes it exceed, the weight is positive. -/
theorem weight_pos_of_step (r : Double)
    (hr : r = Double.nan ∨ r = Double.posInf ∨ ∃ x : ℚ, 0 ≤ x ∧ r = Double.fin x)
    (acc : Double) (hacc : Double.gt acc r = false) (hval : Double.IsValue acc) (w : Double)
    (h : Double.gt (Double.add acc w) r = true) : Double.gt w (Double.fin 0) = true := by
  rcases hr with hr | hr | ⟨x, hx, hr⟩
  · rw [hr, gt_nan_right] at h
    exact Bool.noConfusion h
  · rw [hr, gt_posInf_right] at h
    exact Bool.noConfusion h
  · subst hr
    cases acc with
    | nan => simp [Double.add, Double.gt] at h
    | posInf => simp [Double.gt] at hacc
    | negInf => cases w <;> simp [Double.add, Double.gt] at h
    | fin a =>
      have hax : a ≤ x := by simpa [Double.gt] using hacc
      obtain ⟨harep, habound⟩ := hval a rfl
      cases w with
      | nan => simp [Double.add, Double.gt] at h
      | negInf => simp [Double.add, Double.gt] at h
      | posInf => rfl
      | fin b =>
        have hadd : Double.add (Double.fin a) (Double.fin b) = round (a + b) := rfl
        rw [hadd] at h
        by_contra hb
        have hb0 : b ≤ 0 := by
          simp only [Double.gt, decide_eq_true_eq] at hb
          exact not_lt.mp hb
        have hle : roundQ (a + b) ≤ a := roundQ_le (a + b) a harep (by linarith)
        rcases round_cases (a + b) with ⟨_, h2⟩ | ⟨h2, _⟩ | ⟨h2, _⟩
        · have := (abs_lt.mp habound).2
          linarith
        · rw [h2] at h
          simp [Double.gt] at h
        · rw [h2] at h
          simp only [Double.gt, decide_eq_true_eq] at h
          linarith

theorem selectLoop_weight_pos (r : Double)
    (hr : r = Double.nan ∨ r = Double.posInf ∨ ∃ x : ℚ, 0 ≤ x ∧ r = Double.fin x)
    (vs : List Video) (i : Nat) (acc : Double) (hacc : Double.gt acc r = false)
    (hval : Double.IsValue acc) (j : Nat) (v : Video)
    (h : selectLoop r vs i acc = some (j, v)) : Double.gt v.weight (Double.fin 0) = true := by
  induction vs generalizing i acc with
  | nil => simp [selectLoop] at h
  | cons w rest ih =>
    unfold selectLoop at h
    by_cases hgt : Double.gt (Double.add acc w.weight) r = true
    · rw [if_pos hgt] at h
      simp only [Option.some.injEq, Prod.mk.injEq] at h
      rw [← h.2]
      exact weight_pos_of_step r hr acc hacc hval w.weight hgt
    · rw [if_neg hgt] at h
      exact ih (i + 1) _ (by simpa using hgt) (isValue_add acc w.weight hval) h

theorem gt_zero_offset_false (r : Double)
    (hr : r = Double.nan ∨ r = Double.posInf ∨ ∃ x : ℚ, 0 ≤ x ∧ r = Double.fin x) :
    Double.gt (Double.fin 0) r = false := by
  rcases hr with hr | hr | ⟨x, hx, hr⟩
  · rw [hr]; rfl
  · rw [hr]; rfl
  · rw [hr]
    simp only [Double.gt, decide_eq_false_iff_not, not_lt]
    exact hx

/-- C5, as the code has it. When the total the code computes for the
candidates of `tag` is at least zero and the draw is at least zero, every video
that `chooseVideoForTag(tag)` returns has a strictly positive weight, whatever
mix of positive, zero and negative weights the candidates carry. -/
theorem chooseVideoForTag_weight_pos (inf : Influencer) (tag : JsString) (cands : List Video)
    (hc : inf.getVideosForTag tag = Except.ok cands)
    (hsum : Double.ge (sumWeights cands) (Double.fin 0) = true)
    (u : Double) (hu : Double.ge u (Double.fin 0) = true) (v : Video)
    (hv : inf.chooseVideoForTag tag u = Except.ok (Selection.video v)) :
    Double.gt v.weight (Double.fin 0) = true := by
  rw [chooseVideoForTag_of_candidates inf tag cands hc u] at hv
  have hr := randOfs_of_nonneg u (sumWeights cands) hu hsum
  unfold chooseAmong at hv
  by_cases hlen : cands.length = 0
  · simp [hlen] at hv
  rw [if_neg hlen] at hv
  cases hloop : selectLoop (randOfs u (sumWeights cands)) cands 0 (Double.fin 0) with
  | none => simp [hloop] at hv
  | some p =>
    obtain ⟨j, w⟩ := p
    simp only [hloop, Except.ok.injEq, Selection.video.injEq] at hv
    subst hv
    exact selectLoop_weight_pos _ hr cands 0 (Double.fin 0) (gt_zero_offset_false _ hr)
      isValue_zero j w hloop

theorem add_fin_eq (a b c : ℚ) (h : a + b = c) (hc : Representable c)
    (hb : |c| < (2 : ℚ) ^ (1024 : Nat)) :
    Double.add (Double.fin a) (Double.fin b) = Double.fin c := by
  show round (a + b) = Double.fin c
  rw [h]
  exact round_of_representable c hc hb

theorem mul_fin_eq (a b c : ℚ) (h : a * b = c) (hc : Representable c)
    (hb : |c| < (2 : ℚ) ^ (1024 : Nat)) :
    Double.mul (Double.fin a) (Double.fin b) = Double.fin c := by
  show round (a * b) = Double.fin c
  rw [h]
  exact round_of_representable c hc hb

theorem sumWeights_bob : sumWeights [bobW1, bobW2] = Double.fin (-5) := by
  have h1 : Double.add (Double.fin 0) (Double.fin 0) = Double.fin 0 :=
    add_fin_eq 0 0 0 (by norm_num) representable_zero (by norm_num)
  have h2 : Double.add (Double.fin 0) (Double.fin (-5)) = Double.fin (-5) :=
    add_fin_eq 0 (-5) (-5) (by norm_num) ⟨-5, 0, by norm_num, by norm_num, by norm_num⟩
      (by norm_num)
  simp only [sumWeights, List.foldl, bobW1, bobW2, mkVideo, h1, h2]

theorem randOfs_half_neg_five :
    randOfs (Double.fin (1 / 2)) (Double.fin (-5)) = Double.fin (-3) := by
  have h1 : Double.mul (Double.fin (1 / 2)) (Double.fin (-5)) = Double.fin (-5 / 2) :=
    mul_fin_eq (1 / 2) (-5) (-5 / 2) (by norm_num) ⟨-5, -1, by norm_num, by norm_num, by norm_num⟩
      (by rw [abs_lt]; constructor <;> norm_num)
  have h2 : ⌊(-5 / 2 : ℚ)⌋ = -3 := by
    rw [Int.floor_eq_iff]
    norm_num
  simp only [randOfs, h1, Double.floor, h2]
  norm_num

/-- C5 as stated fails: the candidates of tag `t` of `bob` have weights `0` and
`-5`, the draw `1/2` gives the offset `Math.floor(1/2 * -5) = -3`, and the loop
returns the first candidate, whose weight `0` is not positive. -/
theorem chooseVideoForTag_weight_pos_counterexample :
    bob.getVideosForTag (js "t") = Except.ok [bobW1, bobW2] ∧
    Double.ge (Double.fin (1 / 2)) (Double.fin 0) = true ∧
    Double.gt (Double.fin 1) (Double.fin (1 / 2)) = true ∧
    bob.chooseVideoForTag (js "t") (Double.fin (1 / 2)) = Except.ok (Selection.video bobW1) ∧
    bobW1.weight = Double.fin 0 ∧
    Double.gt bobW1.weight (Double.fin 0) = false := by
  have hc : bob.getVideosForTag (js "t") = Except.ok [bobW1, bobW2] := rfl
  refine ⟨hc, by simp [Double.ge], by norm_num [Double.gt], ?_, rfl,
    by simp [Double.gt, bobW1, mkVideo]⟩
  rw [chooseVideoForTag_of_candidates bob (js "t") _ hc]
  have h1 : Double.add (Double.fin 0) (Double.fin 0) = Double.fin 0 :=
    add_fin_eq 0 0 0 (by norm_num) representable_zero (by norm_num)
  have hw : bobW1.weight = Double.fin 0 := rfl
  simp only [chooseAmong, sumWeights_bob, randOfs_half_neg_five, selectLoop, hw, h1]
  simp [Double.gt]

theorem sumWeights_alice : sumWeights [aliceV1, aliceV2] = Double.fin 4 := by
  have h1 : Double.add (Double.fin 0) (Double.fin 1) = Double.fin 1 :=
    add_fin_eq 0 1 1 (by norm_num) ⟨1, 0, by norm_num, by norm_num, by norm_num⟩ (by norm_num)
  have h2 : Double.add (Double.fin 1) (Double.fin 3) = Double.fin 4 :=
    add_fin_eq 1 3 4 (by norm_num) ⟨4, 0, by norm_num, by norm_num, by norm_num⟩ (by norm_num)
  simp only [sumWeights, List.foldl, aliceV1, aliceV2, mkVideo, h1, h2]

theorem chooseVideoForTag_weight_pos_witness :
    alice.getVideosForTag (js "wave") = Except.ok [aliceV1, aliceV2] ∧
    Double.ge (sumWeights [aliceV1, aliceV2]) (Double.fin 0) = true ∧
    Double.ge (Double.fin 0) (Double.fin 0) = true ∧
    alice.chooseVideoForTag (js "wave") (Double.fin 0) = Except.ok (Selection.video aliceV1) ∧
    Double.gt aliceV1.weight (Double.fin 0) = true :=
  have hc : alice.getVideosForTag (js "wave") = Except.ok [aliceV1, aliceV2] := by decide
  have hs : Double.ge (sumWeights [aliceV1, aliceV2]) (Double.fin 0) = true := by
    rw [sumWeights_alice]
    simp [Double.ge]
  have hu : Double.ge (Double.fin 0) (Double.fin 0) = true := by simp [Double.ge]
  have hv : alice.chooseVideoForTag (js "wave") (Double.fin 0)
      = Except.ok (Selection.video aliceV1) := by
    rw [chooseVideoForTag_of_candidates alice (js "wave") _ hc]
    have h0 : Double.mul (Double.fin 0) (Double.fin 4) = Double.fin 0 :=
      mul_fin_eq 0 4 0 (by norm_num) representable_zero (by norm_num)
    have h1 : Double.add (Double.fin 0) (Double.fin 1) = Double.fin 1 :=
      add_fin_eq 0 1 1 (by norm_num) ⟨1, 0, by norm_num, by norm_num, by norm_num⟩ (by norm_num)
    have hw : aliceV1.weight = Double.fin 1 := rfl
    simp only [chooseAmong, sumWeights_alice, randOfs, h0, Double.floor, selectLoop, hw, h1]
    simp [Double.gt]
  ⟨hc, hs, hu, hv,
    chooseVideoForTag_weight_pos alice (js "wave") [aliceV1, aliceV2] hc hs (Double.fin 0) hu
      aliceV1 hv⟩

theorem sumWeights_carol : sumWeights [carolQ1, carolQ2] = Double.fin 1 := by
  have h1 : Double.add (Double.fin 0) (Double.fin (1 / 4)) = Double.fin (1 / 4) :=
    add_fin_eq 0 (1 / 4) (1 / 4) (by norm_num) ⟨1, -2, by norm_num, by norm_num, by norm_num⟩
      (by rw [abs_lt]; constructor <;> norm_num)
  have h2 : Double.add (Double.fin (1 / 4)) (Double.fin (3 / 4)) = Double.fin 1 :=
    add_fin_eq (1 / 4) (3 / 4) 1 (by norm_num) ⟨1, 0, by norm_num, by norm_num, by norm_num⟩
      (by norm_num)
  simp only [sumWeights, List.foldl, carolQ1, carolQ2, mkVideo, h1, h2]

/-- C1 fails on weights that are not integers. The candidates of tag `t` of
`carol` weigh `0.25` and `0.75`; the code's total is `1`, the offset
`Math.floor(u * 1)` is `0` at every draw in `[0, 1)`, and the loop returns the
first, lighter candidate at every draw: the heavier one, to which the claim
gives probability `3/4`, is never returned. -/
theorem chooseVideoForTag_fractional_weights :
    carol.getVideosForTag (js "t") = Except.ok [carolQ1, carolQ2] ∧
    carolQ1.weight = Double.fin (1 / 4) ∧
    carolQ2.weight = Double.fin (3 / 4) ∧
    sumWeights [carolQ1, carolQ2] = Double.fin 1 ∧
    carolQ2 ≠ carolQ1 ∧
    (∀ t : ℚ, round t = Double.fin t → 0 ≤ t → t < 1 →
      carol.chooseVideoForTag (js "t") (Double.fin t)
        = Except.ok (Selection.video carolQ1)) ∧
    carol.chooseVideoForTag (js "t") (Double.fin (15 / 16))
      = Except.ok (Selection.video carolQ1) := by
  have hc : carol.getVideosForTag (js "t") = Except.ok [carolQ1, carolQ2] := rfl
  have hall : ∀ t : ℚ, round t = Double.fin t → 0 ≤ t → t < 1 →
      carol.chooseVideoForTag (js "t") (Double.fin t)
        = Except.ok (Selection.video carolQ1) := ?_
  · refine ⟨hc, rfl, rfl, sumWeights_carol, by decide, hall, ?_⟩
    apply hall (15 / 16) _ (by norm_num) (by norm_num)
    exact round_of_representable _ ⟨15, -4, by norm_num, by norm_num, by norm_num⟩
      (by rw [abs_lt]; constructor <;> norm_num)
  intro t ht h0 h1
  rw [chooseVideoForTag_of_candidates carol (js "t") _ hc]
  have hmul : Double.mul (Double.fin t) (Double.fin 1) = Double.fin t := by
    show round (t * 1) = Double.fin t
    rw [mul_one]
    exact ht
  have hfloor : ⌊t⌋ = 0 := Int.floor_eq_zero_iff.mpr ⟨h0, h1⟩
  have hacc : Double.add (Double.fin 0) (Double.fin (1 / 4)) = Double.fin (1 / 4) :=
    add_fin_eq 0 (1 / 4) (1 / 4) (by norm_num) ⟨1, -2, by norm_num, by norm_num, by norm_num⟩
      (by rw [abs_lt]; constructor <;> norm_num)
  have hw : carolQ1.weight = Double.fin (1 / 4) := rfl
  simp only [chooseAmong, sumWeights_carol, randOfs, hmul, Double.floor, hfloor, selectLoop, hw,
    hacc]
  norm_num [Double.gt]

theorem representable_two_pow_1023 : Representable ((2 : ℚ) ^ 1023) :=
  ⟨1, 1023, by norm_num, by norm_num, by norm_num⟩

theorem two_pow_1023_lt : |(2 : ℚ) ^ 1023| < (2 : ℚ) ^ (1024 : Nat) := by
  rw [abs_lt]
  constructor <;> norm_num

theorem add_zero_two_pow_1023 :
    Double.add (Double.fin 0) (Double.fin (2 ^ 1023)) = Double.fin (2 ^ 1023) :=
  add_fin_eq 0 (2 ^ 1023) (2 ^ 1023) (zero_add _) representable_two_pow_1023 two_pow_1023_lt

theorem representable_two_pow_1024 : Representable ((2 : ℚ) ^ 1023 + (2 : ℚ) ^ 1023) :=
  ⟨1, 1024, by norm_num, by norm_num, by norm_num⟩

theorem two_pow_1024_le : (2 : ℚ) ^ (1024 : Nat) ≤ (2 : ℚ) ^ 1023 + (2 : ℚ) ^ 1023 := by
  norm_num

theorem add_two_pow_1023_self :
    Double.add (Double.fin (2 ^ 1023)) (Double.fin (2 ^ 1023)) = Double.posInf := by
  show round (2 ^ 1023 + 2 ^ 1023) = Double.posInf
  have h : roundQ (2 ^ 1023 + 2 ^ 1023) = 2 ^ 1023 + 2 ^ 1023 :=
    roundQ_of_representable _ representable_two_pow_1024
  unfold round
  rw [h, if_pos two_pow_1024_le]

theorem sumWeights_pair (a b : Video) :
    sumWeights [a, b] = Double.add (Double.add (Double.fin 0) a.weight) b.weight := rfl

theorem sumWeights_triple (a b c : Video) :
    sumWeights [a, b, c]
      = Double.add (Double.add (Double.add (Double.fin 0) a.weight) b.weight) c.weight := rfl

theorem selectLoop_pair_none (r : Double) (a b : Video) (x y : Double)
    (h1 : Double.add (Double.fin 0) a.weight = x) (h2 : Double.add x b.weight = y)
    (hx : Double.gt x r = false) (hy : Double.gt y r = false) :
    selectLoop r [a, b] 0 (Double.fin 0) = none := by
  simp [selectLoop, h1, h2, hx, hy]

theorem selectLoop_triple_stuck (r : Double) (a b c : Video) (x : Double)
    (h1 : Double.add (Double.fin 0) a.weight = x) (h2 : Double.add x b.weight = x)
    (h3 : Double.add x c.weight = x) :
    selectLoop r [a, b, c] 0 (Double.fin 0) = some (0, a) ∨
    selectLoop r [a, b, c] 0 (Double.fin 0) = none := by
  by_cases h : Double.gt x r = true
  · left
    simp [selectLoop, h1, h]
  · right
    simp [selectLoop, h1, h2, h3, h]

theorem sumWeights_erin : sumWeights [erinX1, erinX2] = Double.posInf := by
  rw [sumWeights_pair]
  exact (congrArg (fun x => Double.add x erinX2.weight) add_zero_two_pow_1023).trans
    add_two_pow_1023_self

/-- C2 fails when the total overflows. The two candidates of tag `t` of `erin`
have the positive weight `2 ^ 1023` each; their sum overflows to `+Infinity`,
the offset is `+Infinity` (`NaN` at draw `0`), no comparison `acc > randOfs`
succeeds, and `chooseVideoForTag` returns `undefined` at every draw. -/
theorem chooseVideoForTag_overflow_undefined :
    erin.getVideosForTag (js "t") = Except.ok [erinX1, erinX2] ∧
    [erinX1, erinX2] ≠ [] ∧
    (∀ v ∈ [erinX1, erinX2], Double.IsValue v.weight ∧
      Double.gt v.weight (Double.fin 0) = true) ∧
    sumWeights [erinX1, erinX2] = Double.posInf ∧
    (∀ t : ℚ, 0 ≤ t →
      erin.chooseVideoForTag (js "t") (Double.fin t) = Except.ok Selection.undefined) ∧
    erin.chooseVideoForTag (js "t") (Double.fin (1 / 2)) = Except.ok Selection.undefined := by
  have hc : erin.getVideosForTag (js "t") = Except.ok [erinX1, erinX2] := rfl
  have hval : Double.IsValue (Double.fin (2 ^ 1023)) := by
    intro a ha
    have : (2 : ℚ) ^ 1023 = a := Double.fin.inj ha
    rw [← this]
    exact ⟨representable_two_pow_1023, two_pow_1023_lt⟩
  have hpos : Double.gt (Double.fin (2 ^ 1023)) (Double.fin 0) = true := by
    have : (0 : ℚ) < 2 ^ 1023 := by positivity
    simp only [Double.gt, decide_eq_true_eq]
    exact this
  have hall : ∀ t : ℚ, 0 ≤ t →
      erin.chooseVideoForTag (js "t") (Double.fin t) = Except.ok Selection.undefined := ?_
  · refine ⟨hc, by simp, ?_, sumWeights_erin, hall, hall (1 / 2) (by norm_num)⟩
    intro v hv
    simp only [List.mem_cons, List.mem_singleton, List.not_mem_nil, or_false] at hv
    rcases hv with rfl | rfl
    · exact ⟨hval, hpos⟩
    · exact ⟨hval, hpos⟩
  · intro t ht
    rw [chooseVideoForTag_of_candidates erin (js "t") _ hc]
    have hr : randOfs (Double.fin t) Double.posInf = Double.nan ∨
        randOfs (Double.fin t) Double.posInf = Double.posInf := by
      by_cases h0 : t = 0
      · left
        simp [randOfs, Double.mul, Double.mulInf, h0, Double.floor]
      · right
        have : 0 < t := lt_of_le_of_ne ht (Ne.symm h0)
        simp [randOfs, Double.mul, Double.mulInf, h0, this, Double.floor]
    have hnone : selectLoop (randOfs (Double.fin t) (sumWeights [erinX1, erinX2]))
        [erinX1, erinX2] 0 (Double.fin 0) = none := by
      rw [sumWeights_erin]
      apply selectLoop_pair_none _ erinX1 erinX2 (Double.fin (2 ^ 1023)) Double.posInf
        add_zero_two_pow_1023 add_two_pow_1023_self
      · rcases hr with hr | hr
        · rw [hr]; rfl
        · rw [hr]; rfl
      · rcases hr with hr | hr
        · rw [hr]; rfl
        · rw [hr]; rfl
    unfold chooseAmong
    rw [if_neg (by simp), hnone]

theorem representable_two_pow_53 : Representable ((2 : ℚ) ^ 53) :=
  ⟨2 ^ 53, 0, by norm_num, by norm_num, by norm_num⟩

theorem two_pow_53_lt : |(2 : ℚ) ^ 53| < (2 : ℚ) ^ (1024 : Nat) := by
  rw [abs_lt]
  constructor <;> norm_num

theorem roundQ_two_pow_53_add_one : roundQ (2 ^ 53 + 1) = 2 ^ 53 := by
  have hpos : (0 : ℚ) < 2 ^ 53 + 1 := by norm_num
  have hlog : Int.log 2 |(2 ^ 53 + 1 : ℚ)| = 53 := by
    rw [abs_of_pos hpos]
    apply le_antisymm
    · have : Int.log 2 (2 ^ 53 + 1 : ℚ) < 54 := by
        rw [← Int.lt_zpow_iff_log_lt (by norm_num) hpos]
        norm_num
      omega
    · rw [← Int.zpow_le_iff_le_log (by norm_num) hpos]
      norm_num
  have hq : quantum (2 ^ 53 + 1) = 1 := by
    unfold quantum
    rw [hlog]
    norm_num
  have hfloor : ⌊((2 ^ 53 + 1 : ℚ) / 2)⌋ = 2 ^ 52 := by
    rw [Int.floor_eq_iff]
    norm_num
  have hrne : rne ((2 ^ 53 + 1 : ℚ) / 2) = 2 ^ 52 := by
    unfold rne
    rw [hfloor]
    norm_num
  unfold roundQ
  rw [hq, zpow_one, hrne]
  norm_num

theorem add_two_pow_53_one :
    Double.add (Double.fin (2 ^ 53)) (Double.fin 1) = Double.fin (2 ^ 53) := by
  show round (2 ^ 53 + 1) = Double.fin (2 ^ 53)
  have hb : |roundQ (2 ^ 53 + 1)| < (2 : ℚ) ^ (1024 : Nat) := by
    rw [roundQ_two_pow_53_add_one]
    exact two_pow_53_lt
  rw [round_eq_fin _ hb, roundQ_two_pow_53_add_one]

theorem add_zero_two_pow_53 :
    Double.add (Double.fin 0) (Double.fin (2 ^ 53)) = Double.fin (2 ^ 53) :=
  add_fin_eq 0 (2 ^ 53) (2 ^ 53) (zero_add _) representable_two_pow_53 two_pow_53_lt

/-- C10 as stated fails for large integer weights. The candidates
`hugeCandidates` have the positive integer weights `2 ^ 53`, `1` and `1`; adding
`1` to `2 ^ 53` rounds back to `2 ^ 53`, so the code's total is `2 ^ 53` and the
accumulator never passes it: at every offset the loop returns the first
candidate or nothing, and the second and third candidates are returned at no
offset although each has weight `1`. -/
theorem integer_offsets_counterexample :
    hugeCandidates.map Video.weight = [Double.fin (2 ^ 53), Double.fin 1, Double.fin 1] ∧
    sumWeights hugeCandidates = Double.fin (2 ^ 53) ∧
    ∀ r : Double,
      selectLoop r hugeCandidates 0 (Double.fin 0) = some (0, mkVideo "a" (2 ^ 53) ["t"]) ∨
      selectLoop r hugeCandidates 0 (Double.fin 0) = none := by
  refine ⟨rfl, ?_, ?_⟩
  · unfold hugeCandidates
    rw [sumWeights_triple]
    exact ((congrArg (fun x => Double.add (Double.add x (Double.fin 1)) (Double.fin 1))
      add_zero_two_pow_53).trans
        (congrArg (fun x => Double.add x (Double.fin 1)) add_two_pow_53_one)).trans
          add_two_pow_53_one
  · intro r
    exact selectLoop_triple_stuck r _ _ _ (Double.fin (2 ^ 53)) add_zero_two_pow_53
      add_two_pow_53_one add_two_pow_53_one

/-! ## Integer weights: the offsets are partitioned into blocks -/

/-- A binary64 value below `1` is at most `1 - 2 ^ (-53)`. -/
theorem representable_lt_one (t : ℚ) (ht : Representable t) (h1 : t < 1) :
    t ≤ 1 - 1 / 2 ^ 53 := by
  obtain ⟨m, e, hm, he, rfl⟩ := ht
  have hmq : |(m : ℚ)| ≤ 2 ^ 53 := by
    have : ((|m| : Int) : ℚ) ≤ ((2 ^ 53 : Int) : ℚ) := by exact_mod_cast hm
    simpa using this
  by_cases hcase : -53 ≤ e
  · obtain ⟨k, hk⟩ := Int.eq_ofNat_of_zero_le (by omega : 0 ≤ e + 53)
    have he2 : e = (k : Int) - 53 := by omega
    have hpow : (2 : ℚ) ^ e = (2 : ℚ) ^ k / 2 ^ 53 := by
      rw [he2, zpow_sub₀ (by norm_num : (2 : ℚ) ≠ 0), zpow_natCast]
      norm_num
    rw [hpow] at h1 ⊢
    have h2 : ((m * 2 ^ k : Int) : ℚ) < ((2 ^ 53 : Int) : ℚ) := by
      push_cast
      have h3 : (m : ℚ) * ((2 : ℚ) ^ k / 2 ^ 53) = (m : ℚ) * (2 : ℚ) ^ k / 2 ^ 53 := by ring
      rw [h3, div_lt_one (by positivity)] at h1
      exact h1
    have h4 : m * 2 ^ k ≤ 2 ^ 53 - 1 := by
      have : m * 2 ^ k < 2 ^ 53 := by exact_mod_cast h2
      omega
    have h5 : ((m * 2 ^ k : Int) : ℚ) ≤ ((2 ^ 53 - 1 : Int) : ℚ) := by exact_mod_cast h4
    have h5b : (m : ℚ) * (2 : ℚ) ^ k ≤ 2 ^ 53 - 1 := by
      have h5c := h5
      push_cast at h5c
      linarith
    have h6 : (m : ℚ) * ((2 : ℚ) ^ k / 2 ^ 53) = ((m : ℚ) * (2 : ℚ) ^ k) / 2 ^ 53 := by ring
    rw [h6, div_le_iff₀ (by positivity)]
    have h7 : ((1 : ℚ) - 1 / 2 ^ 53) * 2 ^ 53 = 2 ^ 53 - 1 := by norm_num
    rw [h7]
    exact h5b
  · have hp := two_zpow_pos e
    have h2 : (2 : ℚ) ^ e ≤ (2 : ℚ) ^ (-54 : Int) :=
      zpow_le_zpow_right₀ (by norm_num) (by omega)
    have h3 : (m : ℚ) * (2 : ℚ) ^ e ≤ 2 ^ 53 * (2 : ℚ) ^ (-54 : Int) := by
      calc (m : ℚ) * (2 : ℚ) ^ e ≤ |(m : ℚ)| * (2 : ℚ) ^ e :=
            mul_le_mul_of_nonneg_right (le_abs_self _) (le_of_lt hp)
        _ ≤ 2 ^ 53 * (2 : ℚ) ^ e := mul_le_mul_of_nonneg_right hmq (le_of_lt hp)
        _ ≤ 2 ^ 53 * (2 : ℚ) ^ (-54 : Int) := mul_le_mul_of_nonneg_left h2 (by positivity)
    have h4 : (2 : ℚ) ^ 53 * (2 : ℚ) ^ (-54 : Int) ≤ 1 - 1 / 2 ^ 53 := by norm_num
    exact le_trans h3 h4

/-- The rounded product of a draw below `1` with a total of at least `1` stays
below the total. -/
theorem roundQ_mul_lt (t s : ℚ) (ht : Representable t) (h0 : 0 ≤ t) (h1 : t < 1)
    (hs : 1 ≤ s) : roundQ (t * s) < s := by
  by_contra hcon
  have hge : s ≤ roundQ (t * s) := not_lt.mp hcon
  have ht2 := representable_lt_one t ht h1
  have hspos : 0 < s := by linarith
  have hx1 : t * s ≤ s - s / 2 ^ 53 := by
    have : t * s ≤ (1 - 1 / 2 ^ 53) * s := mul_le_mul_of_nonneg_right ht2 (le_of_lt hspos)
    have h2 : ((1 : ℚ) - 1 / 2 ^ 53) * s = s - s / 2 ^ 53 := by ring
    linarith
  have hxlt : t * s < s := by nlinarith
  have hx0 : 0 ≤ t * s := mul_nonneg h0 (le_of_lt hspos)
  by_cases hx : t * s = 0
  · rw [hx, roundQ_zero] at hge
    linarith
  have hp := two_zpow_pos (quantum (t * s))
  have herr := (abs_le.mp (abs_rne_sub_le (t * s / (2 : ℚ) ^ quantum (t * s)))).2
  have hcancel : t * s / (2 : ℚ) ^ quantum (t * s) * (2 : ℚ) ^ quantum (t * s) = t * s :=
    div_mul_cancel₀ _ (ne_of_gt hp)
  have h3 : roundQ (t * s) - t * s ≤ (2 : ℚ) ^ quantum (t * s) / 2 := by
    unfold roundQ
    have := mul_le_mul_of_nonneg_right herr (le_of_lt hp)
    rw [sub_mul, hcancel] at this
    linarith
  have h4 : s ≤ 2 ^ 52 * (2 : ℚ) ^ quantum (t * s) := by
    have h5 : s / 2 ^ 53 ≤ (2 : ℚ) ^ quantum (t * s) / 2 := by linarith
    have h6 : s / 2 ^ 53 * 2 ^ 53 = s := div_mul_cancel₀ _ (by positivity)
    have h7 := mul_le_mul_of_nonneg_right h5 (by positivity : (0 : ℚ) ≤ 2 ^ 53)
    rw [h6] at h7
    have h8 : (2 : ℚ) ^ quantum (t * s) / 2 * 2 ^ 53 = 2 ^ 52 * (2 : ℚ) ^ quantum (t * s) := by
      ring
    linarith
  rcases eq_or_lt_of_le (quantum_ge (t * s)) with he | he
  · rw [← he] at h4
    have h9 : (2 : ℚ) ^ 52 * (2 : ℚ) ^ (-1074 : Int) < 1 := by norm_num
    linarith
  · have h5 := zpow_quantum_le_abs (t * s) hx he
    rw [abs_of_nonneg hx0, zpow_quantum_add] at h5
    push_cast at h5
    linarith

theorem add_natCast (a b : Nat) (h : a + b ≤ 2 ^ 53) :
    Double.add (Double.fin (a : ℚ)) (Double.fin (b : ℚ)) = Double.fin ((a + b : Nat) : ℚ) := by
  have hq : ((a + b : Nat) : ℚ) ≤ 2 ^ 53 := by exact_mod_cast h
  have hq0 : (0 : ℚ) ≤ ((a + b : Nat) : ℚ) := Nat.cast_nonneg _
  apply add_fin_eq
  · push_cast
    ring
  · have h2 : |((a + b : Nat) : Int)| ≤ 2 ^ 53 := by
      rw [abs_of_nonneg (by positivity)]
      exact_mod_cast h
    have := representable_intCast ((a + b : Nat) : Int) h2
    simpa using this
  · rw [abs_of_nonneg hq0]
    have : (2 : ℚ) ^ 53 < 2 ^ (1024 : Nat) := by norm_num
    linarith

theorem weights_cons (c : Video) (cs : List Video) (w : Nat) (ws : List Nat)
    (hw : (c :: cs).map Video.weight = (w :: ws).map (fun n : Nat => Double.fin (n : ℚ))) :
    c.weight = Double.fin (w : ℚ) ∧
      cs.map Video.weight = ws.map (fun n : Nat => Double.fin (n : ℚ)) := by
  simp only [List.map_cons, List.cons.injEq] at hw
  exact hw

theorem foldl_add_natCast (ws : List Nat) (cands : List Video) (a : Nat)
    (hw : cands.map Video.weight = ws.map (fun n : Nat => Double.fin (n : ℚ)))
    (hb : a + ws.sum ≤ 2 ^ 53) :
    cands.foldl (fun acc x => Double.add acc x.weight) (Double.fin (a : ℚ))
      = Double.fin ((a + ws.sum : Nat) : ℚ) := by
  induction ws generalizing cands a with
  | nil =>
    cases cands with
    | nil => simp
    | cons c cs => simp at hw
  | cons w ws ih =>
    cases cands with
    | nil => simp at hw
    | cons c cs =>
      obtain ⟨hc, hcs⟩ := weights_cons c cs w ws hw
      simp only [List.sum_cons] at hb
      rw [List.foldl_cons, hc, add_natCast a w (by omega), ih cs (a + w) hcs (by omega)]
      simp only [List.sum_cons]
      congr 2
      omega

theorem sumWeights_natCast (ws : List Nat) (cands : List Video)
    (hw : cands.map Video.weight = ws.map (fun n : Nat => Double.fin (n : ℚ)))
    (hb : ws.sum ≤ 2 ^ 53) : sumWeights cands = Double.fin (ws.sum : ℚ) := by
  have h := foldl_add_natCast ws cands 0 hw (by omega)
  simp only [Nat.cast_zero, zero_add] at h
  exact h

theorem selectLoop_block (ws : List Nat) (cands : List Video) (a i0 : Nat) (n : Int)
    (hw : cands.map Video.weight = ws.map (fun n : Nat => Double.fin (n : ℚ)))
    (hb : a + ws.sum ≤ 2 ^ 53) (han : (a : Int) ≤ n) (i : Nat) (v : Video)
    (hi : cands[i]? = some v) :
    selectLoop (Double.fin (n : ℚ)) cands i0 (Double.fin (a : ℚ)) = some (i0 + i, v) ↔
      (a : Int) + ((ws.take i).sum : Nat) ≤ n ∧ n < (a : Int) + ((ws.take (i + 1)).sum : Nat) := by
  induction ws generalizing cands a i0 i with
  | nil =>
    cases cands with
    | nil => simp at hi
    | cons c cs => simp at hw
  | cons w ws ih =>
    cases cands with
    | nil => simp at hw
    | cons c cs =>
      obtain ⟨hc, hcs⟩ := weights_cons c cs w ws hw
      simp only [List.sum_cons] at hb
      have hadd := add_natCast a w (by omega)
      have hgt : Double.gt (Double.fin ((a + w : Nat) : ℚ)) (Double.fin (n : ℚ)) = true ↔
          n < (a : Int) + (w : Int) := by
        simp only [Double.gt, decide_eq_true_eq]
        constructor
        · intro h
          have : (n : ℚ) < (((a : Int) + (w : Int) : Int) : ℚ) := by
            push_cast
            push_cast at h
            exact h
          exact_mod_cast this
        · intro h
          have : (n : ℚ) < (((a : Int) + (w : Int) : Int) : ℚ) := by exact_mod_cast h
          push_cast at this ⊢
          exact this
      unfold selectLoop
      rw [hc, hadd]
      cases i with
      | zero =>
        simp only [List.getElem?_cons_zero, Option.some.injEq] at hi
        subst hi
        have hT0 : (List.take 0 (w :: ws)).sum = 0 := by simp
        have hT1 : (List.take (0 + 1) (w :: ws)).sum = w := by simp
        rw [hT0, hT1]
        by_cases hcond : n < (a : Int) + (w : Int)
        · rw [if_pos (hgt.mpr hcond)]
          constructor
          · intro _
            constructor
            · simpa using han
            · exact hcond
          · intro _
            rfl
        · rw [if_neg (fun h => hcond (hgt.mp h))]
          constructor
          · intro h
            have := selectLoop_index_ge _ _ _ _ _ _ h
            omega
          · rintro ⟨_, h⟩
            exact absurd h hcond
      | succ i =>
        simp only [List.getElem?_cons_succ] at hi
        have hT1 : (List.take (i + 1) (w :: ws)).sum = w + (ws.take i).sum := by simp
        have hT2 : (List.take (i + 1 + 1) (w :: ws)).sum = w + (ws.take (i + 1)).sum := by simp
        rw [hT1, hT2]
        by_cases hcond : n < (a : Int) + (w : Int)
        · rw [if_pos (hgt.mpr hcond)]
          constructor
          · intro h
            simp only [Option.some.injEq, Prod.mk.injEq] at h
            omega
          · rintro ⟨h, _⟩
            omega
        · rw [if_neg (fun h => hcond (hgt.mp h))]
          have hstep := ih cs (a + w) (i0 + 1) hcs (by omega) (by omega) i hi
          have hidx : i0 + (i + 1) = i0 + 1 + i := by omega
          rw [hidx, hstep]
          constructor
          · rintro ⟨h1, h2⟩
            constructor <;> omega
          · rintro ⟨h1, h2⟩
            constructor <;> omega

theorem randOfs_range (t : ℚ) (ht : round t = Double.fin t) (h0 : 0 ≤ t) (h1 : t < 1)
    (total : Nat) (hpos : 0 < total) (hb : total ≤ 2 ^ 53) :
    ∃ n : Int, randOfs (Double.fin t) (Double.fin (total : ℚ)) = Double.fin (n : ℚ) ∧
      0 ≤ n ∧ n < total := by
  have hrep := (isValue_of_round_eq t ht).1
  have hs1 : (1 : ℚ) ≤ (total : ℚ) := by exact_mod_cast hpos
  have hs2 : (total : ℚ) ≤ 2 ^ 53 := by exact_mod_cast hb
  have hlt := roundQ_mul_lt t total hrep h0 h1 hs1
  have hnn := roundQ_nonneg (t * total) (mul_nonneg h0 (by linarith))
  have hbound : |roundQ (t * total)| < (2 : ℚ) ^ (1024 : Nat) := by
    rw [abs_of_nonneg hnn]
    have : (2 : ℚ) ^ 53 < 2 ^ (1024 : Nat) := by norm_num
    linarith
  have hmul : Double.mul (Double.fin t) (Double.fin (total : ℚ))
      = Double.fin (roundQ (t * total)) := round_eq_fin _ hbound
  refine ⟨⌊roundQ (t * total)⌋, ?_, Int.floor_nonneg.mpr hnn, ?_⟩
  · simp only [randOfs, hmul, Double.floor]
  · have : ⌊roundQ (t * total)⌋ < ((total : Nat) : Int) := by
      rw [Int.floor_lt]
      exact_mod_cast hlt
    exact this

theorem randOfs_surj (total : Nat) (hpos : 0 < total) (hb : total ≤ 2 ^ 52) (n : Int)
    (hn0 : 0 ≤ n) (hn1 : n < total) :
    ∃ t : ℚ, round t = Double.fin t ∧ 0 ≤ t ∧ t < 1 ∧
      randOfs (Double.fin t) (Double.fin (total : ℚ)) = Double.fin (n : ℚ) := by
  have hs0 : (0 : ℚ) < (total : ℚ) := by exact_mod_cast hpos
  have hs2 : (total : ℚ) ≤ 2 ^ 52 := by exact_mod_cast hb
  have hnq0 : (0 : ℚ) ≤ (n : ℚ) := by exact_mod_cast hn0
  have hnq1 : (n : ℚ) ≤ (total : ℚ) - 1 := by
    have : n ≤ (total : Int) - 1 := by omega
    have h2 : ((n : Int) : ℚ) ≤ (((total : Int) - 1 : Int) : ℚ) := by exact_mod_cast this
    push_cast at h2
    exact h2
  have hy : (n : ℚ) * 2 ^ 53 / total * total = (n : ℚ) * 2 ^ 53 :=
    div_mul_cancel₀ _ (ne_of_gt hs0)
  have hk1 : (n : ℚ) * 2 ^ 53 / total ≤ (⌈(n : ℚ) * 2 ^ 53 / total⌉ : ℚ) := Int.le_ceil _
  have hk2 : (⌈(n : ℚ) * 2 ^ 53 / total⌉ : ℚ) < (n : ℚ) * 2 ^ 53 / total + 1 :=
    Int.ceil_lt_add_one _
  have hy0 : (0 : ℚ) ≤ (n : ℚ) * 2 ^ 53 / total := by positivity
  have hy1 : (n : ℚ) * 2 ^ 53 / total ≤ 2 ^ 53 - 2 := by
    rw [div_le_iff₀ hs0]
    nlinarith
  generalize hkdef : ⌈(n : ℚ) * 2 ^ 53 / total⌉ = k at hk1 hk2
  have hkq0 : (0 : ℚ) ≤ (k : ℚ) := le_trans hy0 hk1
  have hkq1 : (k : ℚ) < 2 ^ 53 - 1 := by linarith
  have hk0 : 0 ≤ k := by exact_mod_cast hkq0
  have hkabs : |k| ≤ 2 ^ 53 := by
    rw [abs_of_nonneg hk0]
    have : (k : ℚ) ≤ ((2 ^ 53 : Int) : ℚ) := by
      push_cast
      linarith
    exact_mod_cast this
  have hpow : (2 : ℚ) ^ (-53 : Int) = 1 / 2 ^ 53 := by norm_num
  have ht0 : (0 : ℚ) ≤ (k : ℚ) / 2 ^ 53 := by positivity
  have ht1 : (k : ℚ) / 2 ^ 53 < 1 := by
    rw [div_lt_one (by positivity)]
    linarith
  have htrep : Representable ((k : ℚ) / 2 ^ 53) :=
    ⟨k, -53, hkabs, by norm_num, by rw [hpow]; ring⟩
  have htval : round ((k : ℚ) / 2 ^ 53) = Double.fin ((k : ℚ) / 2 ^ 53) := by
    apply round_of_representable _ htrep
    rw [abs_of_nonneg ht0]
    have : (1 : ℚ) < 2 ^ (1024 : Nat) := by norm_num
    linarith
  have hx1 : (n : ℚ) ≤ (k : ℚ) / 2 ^ 53 * total := by
    have h1 := mul_le_mul_of_nonneg_right hk1 (le_of_lt hs0)
    rw [hy] at h1
    have h2 : (k : ℚ) / 2 ^ 53 * total = (k : ℚ) * total / 2 ^ 53 := by ring
    rw [h2, le_div_iff₀ (by positivity)]
    exact h1
  have hx2 : (k : ℚ) / 2 ^ 53 * total ≤ (n : ℚ) + 1 / 2 := by
    have h1 := mul_le_mul_of_nonneg_right (le_of_lt hk2) (le_of_lt hs0)
    rw [add_mul, hy, one_mul] at h1
    have h2 : (k : ℚ) / 2 ^ 53 * total = (k : ℚ) * total / 2 ^ 53 := by ring
    rw [h2, div_le_iff₀ (by positivity)]
    have h3 : ((n : ℚ) + 1 / 2) * 2 ^ 53 = (n : ℚ) * 2 ^ 53 + 2 ^ 52 := by ring
    rw [h3]
    linarith
  have hnabs : |n| ≤ 2 ^ 53 := by
    rw [abs_of_nonneg hn0]
    omega
  have hlow := le_roundQ _ (n : ℚ) (representable_intCast n hnabs) hx1
  have hhalf : Representable ((n : ℚ) + 1 / 2) := by
    refine ⟨2 * n + 1, -1, ?_, by norm_num, ?_⟩
    · rw [abs_of_nonneg (by omega)]
      omega
    · have : (2 : ℚ) ^ (-1 : Int) = 1 / 2 := by norm_num
      rw [this]
      push_cast
      ring
  have hup := roundQ_le _ ((n : ℚ) + 1 / 2) hhalf hx2
  have hbound : |roundQ ((k : ℚ) / 2 ^ 53 * total)| < (2 : ℚ) ^ (1024 : Nat) := by
    rw [abs_of_nonneg (le_trans hnq0 hlow)]
    have : (2 : ℚ) ^ 52 + 1 < 2 ^ (1024 : Nat) := by norm_num
    linarith
  have hmul : Double.mul (Double.fin ((k : ℚ) / 2 ^ 53)) (Double.fin (total : ℚ))
      = Double.fin (roundQ ((k : ℚ) / 2 ^ 53 * total)) := round_eq_fin _ hbound
  have hfloor : ⌊roundQ ((k : ℚ) / 2 ^ 53 * total)⌋ = n := by
    rw [Int.floor_eq_iff]
    constructor
    · exact hlow
    · linarith
  refine ⟨(k : ℚ) / 2 ^ 53, htval, ht0, ht1, ?_⟩
  simp only [randOfs, hmul, Double.floor, hfloor]

theorem weight_getElem (ws : List Nat) (cands : List Video)
    (hw : cands.map Video.weight = ws.map (fun n : Nat => Double.fin (n : ℚ))) (i : Nat)
    (v : Video) (hi : cands[i]? = some v) :
    ∃ w, ws[i]? = some w ∧ v.weight = Double.fin (w : ℚ) := by
  have h1 : (cands.map Video.weight)[i]? = some v.weight := by
    rw [List.getElem?_map, hi]
    rfl
  rw [hw, List.getElem?_map] at h1
  cases hws : ws[i]? with
  | none => simp [hws] at h1
  | some w =>
    refine ⟨w, rfl, ?_⟩
    simp only [hws, Option.map_some', Option.some.injEq] at h1
    exact h1.symm

/-- C10, as the code has it. For a non-empty candidate list whose weights are
the positive integers `ws`, with sum at most `2 ^ 53`: the code's total is their
exact sum; the offset `Math.floor(u * sumWeigths)` of a draw in `[0, 1)` is an
integer in `0 .. total - 1`, and when the sum is at most `2 ^ 52` each of these
integers is the offset of some draw; the loop returns the candidate at position
`i` at exactly the offsets from the sum of the weights before it up to, and
excluding, that sum plus its own weight, and the number of offsets in
`0 .. total - 1` at which it is returned is its weight. -/
theorem integer_offsets_partition (cands : List Video) (ws : List Nat)
    (hw : cands.map Video.weight = ws.map (fun n : Nat => Double.fin (n : ℚ)))
    (hne : cands ≠ []) (hpos : ∀ n ∈ ws, 0 < n) (hbound : ws.sum ≤ 2 ^ 53) :
    sumWeights cands = Double.fin (ws.sum : ℚ) ∧ 0 < ws.sum ∧
    (∀ t : ℚ, round t = Double.fin t → 0 ≤ t → t < 1 →
      ∃ n : Int, randOfs (Double.fin t) (sumWeights cands) = Double.fin (n : ℚ) ∧
        0 ≤ n ∧ n < ws.sum) ∧
    (ws.sum ≤ 2 ^ 52 → ∀ n : Int, 0 ≤ n → n < ws.sum →
      ∃ t : ℚ, round t = Double.fin t ∧ 0 ≤ t ∧ t < 1 ∧
        randOfs (Double.fin t) (sumWeights cands) = Double.fin (n : ℚ)) ∧
    (∀ (i : Nat) (v : Video), cands[i]? = some v →
      ∃ w : Nat, ws[i]? = some w ∧ v.weight = Double.fin (w : ℚ) ∧
        (ws.take (i + 1)).sum = (ws.take i).sum + w ∧
        (ws.take (i + 1)).sum ≤ ws.sum ∧
        (∀ n : Int, 0 ≤ n → n < ws.sum →
          (selectLoop (Double.fin (n : ℚ)) cands 0 (Double.fin 0) = some (i, v) ↔
            ((ws.take i).sum : Int) ≤ n ∧ n < ((ws.take (i + 1)).sum : Int))) ∧
        ((Finset.Ico (0 : Int) ws.sum).filter
          (fun n : Int => selectLoop (Double.fin (n : ℚ)) cands 0 (Double.fin 0) = some (i, v))).card
          = w) := by
  have hb53 : ws.sum ≤ 2 ^ 53 := hbound
  have hsum := sumWeights_natCast ws cands hw hb53
  have hlen : cands.length = ws.length := by
    have := congrArg List.length hw
    simpa using this
  have hwsne : ws ≠ [] := by
    intro h
    rw [h] at hlen
    exact hne (List.length_eq_zero.mp hlen)
  have htotal : 0 < ws.sum := by
    cases ws with
    | nil => exact absurd rfl hwsne
    | cons w rest =>
      have := hpos w (List.mem_cons_self _ _)
      simp only [List.sum_cons]
      omega
  refine ⟨hsum, htotal, ?_, ?_, ?_⟩
  · intro t ht h0 h1
    rw [hsum]
    exact randOfs_range t ht h0 h1 ws.sum htotal hb53
  · intro hb52 n hn0 hn1
    rw [hsum]
    exact randOfs_surj ws.sum htotal hb52 n hn0 hn1
  · intro i v hi
    obtain ⟨w, hwi, hvw⟩ := weight_getElem ws cands hw i v hi
    have hilt : i < ws.length := by
      by_contra hcon
      rw [List.getElem?_eq_none (by omega)] at hwi
      exact Option.noConfusion hwi
    have hwget : ws[i] = w := by
      rw [List.getElem?_eq_getElem hilt] at hwi
      exact Option.some.inj hwi
    have hstep : (ws.take (i + 1)).sum = (ws.take i).sum + w := by
      rw [List.sum_take_succ ws i hilt, hwget]
    have hle : (ws.take (i + 1)).sum ≤ ws.sum := by
      have := List.sum_take_add_sum_drop ws (i + 1)
      omega
    have hiff : ∀ n : Int, 0 ≤ n →
        (selectLoop (Double.fin (n : ℚ)) cands 0 (Double.fin 0) = some (i, v) ↔
          ((ws.take i).sum : Int) ≤ n ∧ n < ((ws.take (i + 1)).sum : Int)) := by
      intro n hn0
      have h := selectLoop_block ws cands 0 0 n hw (by omega) (by simpa using hn0) i v hi
      simp only [Nat.cast_zero, zero_add] at h
      exact h
    refine ⟨w, hwi, hvw, hstep, hle, fun n hn0 _ => hiff n hn0, ?_⟩
    have hset : (Finset.Ico (0 : Int) ws.sum).filter
        (fun n : Int => selectLoop (Double.fin (n : ℚ)) cands 0 (Double.fin 0) = some (i, v))
        = Finset.Ico ((ws.take i).sum : Int) ((ws.take (i + 1)).sum : Int) := by
      ext n
      simp only [Finset.mem_filter, Finset.mem_Ico]
      constructor
      · rintro ⟨⟨h0, _⟩, h2⟩
        exact (hiff n h0).mp h2
      · rintro ⟨h1, h2⟩
        have h0 : 0 ≤ n := by omega
        have h3 : n < ws.sum := by omega
        exact ⟨⟨h0, h3⟩, (hiff n h0).mpr ⟨h1, h2⟩⟩
    rw [hset, Int.card_Ico]
    omega

theorem integer_offsets_partition_witness :
    [aliceV1, aliceV2].map Video.weight = [1, 3].map (fun n : Nat => Double.fin (n : ℚ)) ∧
    [aliceV1, aliceV2] ≠ [] ∧ (∀ n ∈ [1, 3], 0 < n) ∧ [1, 3].sum ≤ 2 ^ 53 ∧
    [1, 3].sum ≤ 2 ^ 52 ∧
    sumWeights [aliceV1, aliceV2] = Double.fin (([1, 3] : List Nat).sum : ℚ) ∧
    0 < ([1, 3] : List Nat).sum ∧
    (∀ t : ℚ, round t = Double.fin t → 0 ≤ t → t < 1 →
      ∃ n : Int, randOfs (Double.fin t) (sumWeights [aliceV1, aliceV2]) = Double.fin (n : ℚ) ∧
        0 ≤ n ∧ n < ([1, 3] : List Nat).sum) ∧
    (([1, 3] : List Nat).sum ≤ 2 ^ 52 → ∀ n : Int, 0 ≤ n → n < ([1, 3] : List Nat).sum →
      ∃ t : ℚ, round t = Double.fin t ∧ 0 ≤ t ∧ t < 1 ∧
        randOfs (Double.fin t) (sumWeights [aliceV1, aliceV2]) = Double.fin (n : ℚ)) ∧
    (∀ (i : Nat) (v : Video), [aliceV1, aliceV2][i]? = some v →
      ∃ w : Nat, ([1, 3] : List Nat)[i]? = some w ∧ v.weight = Double.fin (w : ℚ) ∧
        (([1, 3] : List Nat).take (i + 1)).sum = (([1, 3] : List Nat).take i).sum + w ∧
        (([1, 3] : List Nat).take (i + 1)).sum ≤ ([1, 3] : List Nat).sum ∧
        (∀ n : Int, 0 ≤ n → n < ([1, 3] : List Nat).sum →
          (selectLoop (Double.fin (n : ℚ)) [aliceV1, aliceV2] 0 (Double.fin 0) = some (i, v) ↔
            ((([1, 3] : List Nat).take i).sum : Int) ≤ n ∧
            n < ((([1, 3] : List Nat).take (i + 1)).sum : Int))) ∧
        ((Finset.Ico (0 : Int) ([1, 3] : List Nat).sum).filter
          (fun n : Int => selectLoop (Double.fin (n : ℚ)) [aliceV1, aliceV2] 0 (Double.fin 0)
            = some (i, v))).card = w) :=
  have hw : [aliceV1, aliceV2].map Video.weight
      = [1, 3].map (fun n : Nat => Double.fin (n : ℚ)) := by
    simp [aliceV1, aliceV2, mkVideo]
  ⟨hw, by simp, by decide, by norm_num, by norm_num,
    integer_offsets_partition [aliceV1, aliceV2] [1, 3] hw (by simp) (by decide) (by norm_num)⟩

/-! ## Tags -/

/-- C3 fails on a video tagged `__proto__`. The view `dave` has one video, its
tag list is `["__proto__"]`, and `getVideosForTag("__proto__")` finds it; but
the assignment `tags["__proto__"] = true` creates no own property, so `tags`
returns the empty list and the tag of the video is missing from it. On the
scenario of the specification `tags` is `["dance", "wave"]`. -/
theorem tags_proto_missing :
    dave.videos = Except.ok [daveP1] ∧
    js "__proto__" ∈ daveP1.tags ∧
    dave.getVideosForTag (js "__proto__") = Except.ok [daveP1] ∧
    dave.tags = Except.ok [] ∧
    alice.tags = Except.ok [js "dance", js "wave"] := by
  decide

theorem strLt_irrefl (a : JsString) : strLt a a = false := by
  induction a with
  | nil => rfl
  | cons x xs ih => simp [strLt, ih]

theorem strLt_trans (a b c : JsString) (hab : strLt a b = true) (hbc : strLt b c = true) :
    strLt a c = true := by
  induction a generalizing b c with
  | nil =>
    cases b with
    | nil => simp [strLt] at hab
    | cons y ys =>
      cases c with
      | nil => simp [strLt] at hbc
      | cons z zs => rfl
  | cons x xs ih =>
    cases b with
    | nil => simp [strLt] at hab
    | cons y ys =>
      cases c with
      | nil => simp [strLt] at hbc
      | cons z zs =>
        simp only [strLt] at hab hbc ⊢
        by_cases hxy : x < y
        · by_cases hyz : y < z
          · have : x < z := by omega
            simp [this]
          · have hzy : ¬ z < y := by
              intro hzy
              simp [hyz, hzy] at hbc
            have : x < z := by omega
            simp [this]
        · have hyx : ¬ y < x := by
            intro hyx
            simp [hxy, hyx] at hab
          simp only [hxy, hyx, if_false] at hab
          by_cases hyz : y < z
          · have : x < z := by omega
            simp [this]
          · have hzy : ¬ z < y := by
              intro hzy
              simp [hyz, hzy] at hbc
            simp only [hyz, hzy, if_false] at hbc
            have h1 : ¬ x < z := by omega
            have h2 : ¬ z < x := by omega
            simp only [h1, h2, if_false]
            exact ih ys zs hab hbc

theorem strLt_trichotomy (a b : JsString) : strLt a b = true ∨ a = b ∨ strLt b a = true := by
  induction a generalizing b with
  | nil =>
    cases b with
    | nil => exact Or.inr (Or.inl rfl)
    | cons y ys => exact Or.inl rfl
  | cons x xs ih =>
    cases b with
    | nil => exact Or.inr (Or.inr rfl)
    | cons y ys =>
      simp only [strLt]
      rcases Nat.lt_trichotomy x y with h | h | h
      · simp [h]
      · subst h
        rcases ih ys with h1 | h1 | h1
        · simp [h1]
        · simp [h1]
        · simp [h1]
      · have : ¬ x < y := by omega
        simp [h, this]

theorem strLt_asymm (a b : JsString) (hab : strLt a b = true) : strLt b a = false := by
  cases h : strLt b a with
  | false => rfl
  | true =>
    have := strLt_trans a b a hab h
    rw [strLt_irrefl] at this
    exact Bool.noConfusion this

theorem keys_define_perm (o : JsObject Bool) (k : JsString) (v : Bool) :
    (Object.keys (Object.define o k v)).Perm (k :: Object.keys o) := by
  induction o with
  | nil => simp [Object.define, Object.keys]
  | cons p rest ih =>
    obtain ⟨k0, v0⟩ := p
    by_cases hb : keyBefore k k0 = true
    · simp [Object.define, hb, Object.keys]
    · simp only [Object.define, hb, Object.keys, List.map_cons]
      simp only [Object.keys] at ih
      exact (List.Perm.cons k0 ih).trans (List.Perm.swap k k0 _)

theorem keys_map_update (o : JsObject Bool) (k : JsString) (v : Bool) :
    Object.keys (o.map (fun p => if p.1 = k then (k, v) else p)) = Object.keys o := by
  induction o with
  | nil => rfl
  | cons p rest ih =>
    simp only [Object.keys, List.map_cons, List.cons.injEq] at ih ⊢
    refine ⟨?_, ih⟩
    by_cases h : p.1 = k
    · simp [h]
    · simp [h]

theorem mem_keys_set (o : JsObject Bool) (k : JsString) (v : Bool) (x : JsString) :
    x ∈ Object.keys (Object.set o k v) ↔
      x ∈ Object.keys o ∨ (x = k ∧ k ≠ js "__proto__") := by
  unfold Object.set
  by_cases hp : k = js "__proto__"
  · simp [hp]
  · rw [if_neg hp]
    by_cases hk : k ∈ Object.keys o
    · rw [if_pos hk, keys_map_update]
      constructor
      · intro h
        exact Or.inl h
      · rintro (h | ⟨h, _⟩)
        · exact h
        · rw [h]
          exact hk
    · rw [if_neg hk, (keys_define_perm o k v).mem_iff]
      simp only [List.mem_cons]
      constructor
      · rintro (h | h)
        · exact Or.inr ⟨h, hp⟩
        · exact Or.inl h
      · rintro (h | ⟨h, _⟩)
        · exact Or.inr h
        · exact Or.inl h

theorem nodup_keys_set (o : JsObject Bool) (k : JsString) (v : Bool)
    (h : (Object.keys o).Nodup) : (Object.keys (Object.set o k v)).Nodup := by
  unfold Object.set
  by_cases hp : k = js "__proto__"
  · rw [if_pos hp]
    exact h
  · rw [if_neg hp]
    by_cases hk : k ∈ Object.keys o
    · rw [if_pos hk, keys_map_update]
      exact h
    · rw [if_neg hk, (keys_define_perm o k v).nodup_iff]
      exact List.nodup_cons.mpr ⟨hk, h⟩

theorem foldl_set_spec (ts : List JsString) (o : JsObject Bool) (h : (Object.keys o).Nodup) :
    (Object.keys (ts.foldl (fun tags t => Object.set tags t true) o)).Nodup ∧
    ∀ x, x ∈ Object.keys (ts.foldl (fun tags t => Object.set tags t true) o) ↔
      x ∈ Object.keys o ∨ (x ∈ ts ∧ x ≠ js "__proto__") := by
  induction ts generalizing o with
  | nil => simp [h]
  | cons t rest ih =>
    obtain ⟨h1, h2⟩ := ih (Object.set o t true) (nodup_keys_set o t true h)
    refine ⟨h1, ?_⟩
    intro x
    rw [List.foldl_cons, h2 x, mem_keys_set]
    constructor
    · rintro ((h3 | ⟨h3, h4⟩) | ⟨h3, h4⟩)
      · exact Or.inl h3
      · exact Or.inr ⟨by simp [h3], by rw [h3]; exact h4⟩
      · exact Or.inr ⟨List.mem_cons_of_mem _ h3, h4⟩
    · rintro (h3 | ⟨h3, h4⟩)
      · exact Or.inl (Or.inl h3)
      · rcases List.mem_cons.mp h3 with h5 | h5
        · exact Or.inl (Or.inr ⟨h5, by rw [← h5]; exact h4⟩)
        · exact Or.inr ⟨h5, h4⟩

theorem collectTags_spec (vs : List Video) (o : JsObject Bool) (h : (Object.keys o).Nodup) :
    (Object.keys (collectTags vs o)).Nodup ∧
    ∀ x, x ∈ Object.keys (collectTags vs o) ↔
      x ∈ Object.keys o ∨ (x ≠ js "__proto__" ∧ ∃ v ∈ vs, x ∈ v.tags) := by
  induction vs generalizing o with
  | nil => simp [collectTags, h]
  | cons w rest ih =>
    obtain ⟨h1, h2⟩ := foldl_set_spec w.tags o h
    obtain ⟨h3, h4⟩ := ih _ h1
    have hstep : collectTags (w :: rest) o
        = collectTags rest (w.tags.foldl (fun tags t => Object.set tags t true) o) := rfl
    rw [hstep]
    refine ⟨h3, ?_⟩
    intro x
    rw [h4 x, h2 x]
    constructor
    · rintro ((h5 | ⟨h5, h6⟩) | ⟨h5, v, hv, hx⟩)
      · exact Or.inl h5
      · exact Or.inr ⟨h6, w, List.mem_cons_self _ _, h5⟩
      · exact Or.inr ⟨h5, v, List.mem_cons_of_mem _ hv, hx⟩
    · rintro (h5 | ⟨h5, v, hv, hx⟩)
      · exact Or.inl (Or.inl h5)
      · rcases List.mem_cons.mp hv with h6 | h6
        · subst h6
          exact Or.inl (Or.inr ⟨hx, h5⟩)
        · exact Or.inr ⟨h5, v, h6, hx⟩

theorem sort_spec (xs : List JsString) (h : xs.Nodup) :
    (sort xs).Perm xs ∧ (sort xs).Pairwise (fun a b => strLt a b = true) := by
  have hperm : (sort xs).Perm xs := List.perm_insertionSort _ xs
  have htotal : IsTotal JsString (fun a b => strLt b a = false) := by
    constructor
    intro a b
    cases hba : strLt b a with
    | false => exact Or.inl rfl
    | true => exact Or.inr (strLt_asymm b a hba)
  have htrans : IsTrans JsString (fun a b => strLt b a = false) := by
    constructor
    intro a b c hab hbc
    cases hca : strLt c a with
    | false => rfl
    | true =>
      rcases strLt_trichotomy a b with h1 | h1 | h1
      · have := strLt_trans c a b hca h1
        simp [this] at hbc
      · subst h1
        simp [hca] at hbc
      · simp [h1] at hab
  have hsorted : (sort xs).Sorted (fun a b => strLt b a = false) :=
    List.sorted_insertionSort _ xs
  have hnodup : (sort xs).Nodup := hperm.nodup_iff.mpr h
  refine ⟨hperm, ?_⟩
  have hboth : (sort xs).Pairwise (fun a b => strLt b a = false ∧ a ≠ b) :=
    List.Pairwise.and hsorted hnodup
  refine hboth.imp ?_
  rintro a b ⟨h1, h2⟩
  rcases strLt_trichotomy a b with h3 | h3 | h3
  · exact h3
  · exact absurd h3 h2
  · simp [h3] at h1

/-- What the `tags` getter computes. For an influencer whose data is the record
`r`, `tags` returns a list in strictly ascending code-unit order, hence without
repetition, and a string is in it exactly when it occurs in the tag list of
some video and is not `__proto__`. -/
theorem tags_spec (inf : Influencer) (r : InfluencerRecord) (h : inf.data = Data.record r) :
    ∃ vs ts, inf.videos = Except.ok vs ∧ inf.tags = Except.ok ts ∧
      ts.Pairwise (fun a b => strLt a b = true) ∧ ts.Nodup ∧
      ∀ t, t ∈ ts ↔ t ≠ js "__proto__" ∧ ∃ v ∈ vs, t ∈ v.tags := by
  have hvs := videos_of_record inf r h
  obtain ⟨h1, h2⟩ := collectTags_spec (videosOf r.videos) [] (by simp [Object.keys])
  obtain ⟨h3, h4⟩ := sort_spec _ h1
  refine ⟨videosOf r.videos, sort (Object.keys (collectTags (videosOf r.videos) [])), hvs, ?_,
    h4, h3.nodup_iff.mpr h1, ?_⟩
  · simp only [Influencer.tags, hvs]
    rfl
  · intro t
    rw [h3.mem_iff, h2 t]
    simp [Object.keys]

end PlayClipsModel
